import Mathlib

/-!
Shallow embedding, in Lean 4, of the generation pipeline of the xschema CLI
(written in Go), together with theorems settling the specification claims
about it.  Each definition translates one Go function of the repository;
the Go standard library surfaces that the code calls (HTTP transport, file
system, json.Valid, json.Unmarshal, regexp application of the two
client-factory patterns) are modelled as explicit parameters or as small
executable functions that mirror the exact regular expressions used.
Machine integers are modelled as Nat/Int; time.Duration values are int64
nanosecond counts, with overflow made explicit by reduction into the
two's-complement range where the Go arithmetic can wrap.
-/

deriving instance DecidableEq for Except

namespace XSchema

/-! ## Retriever: retrieveFromURL (cli/retriever/retriever.go, lines 83-146)

The HTTP exchange of one attempt is abstracted as an AttemptOutcome indexed
by the attempt number: the transport either fails (client.Do error), the
body read fails, or a response arrives with a status code and a body whose
json.Valid result is recorded in the valid flag.  Cancellation and the
request-construction error path (which only fires on malformed URLs) are
not modelled.  The loop itself is translated line by line. -/

inductive AttemptOutcome where
  | transportErr : AttemptOutcome
  | readErr : AttemptOutcome
  | resp (status : Nat) (body : String) (valid : Bool) : AttemptOutcome
deriving DecidableEq

inductive UrlErr where
  | transport : UrlErr
  | readFail : UrlErr
  | server (status : Nat) : UrlErr
  | badStatus (status : Nat) : UrlErr
  | invalidJSON : UrlErr
deriving DecidableEq

/-- Result of a whole retrieveFromURL run.  In Go the loop can in principle
fall through with a nil error and nil body, returning (nil, nil); the
variant nilNil records exactly that outcome so that its unreachability is a
theorem rather than a modelling assumption. -/
inductive UrlOutcome where
  | success (body : String) : UrlOutcome
  | failure (e : UrlErr) : UrlOutcome
  | nilNil : UrlOutcome
deriving DecidableEq

structure UrlRun where
  outcome : UrlOutcome
  attempts : Nat
  delays : List Int
deriving DecidableEq

/-- retryBaseDelay = 500 * time.Millisecond: 5e8 nanoseconds as a
time.Duration, an int64. -/
def retryBaseDelay : Int := 500000000

/-- Reduction of an integer into int64 two's-complement range. -/
def wrap64 (n : Int) : Int :=
  (n + 9223372036854775808) % 18446744073709551616 - 9223372036854775808

/-- The Go expression time.Duration(1 << (a - 1)) on a 64-bit int: a shift
count of 63 lands on the most negative int64, and counts of 64 and above
produce 0. -/
def shiftOne (k : Nat) : Int := if k < 64 then wrap64 (2 ^ k) else 0

/-- Delay slept before attempt number a (a counted from 0; only consulted
for 0 < a): retryBaseDelay * time.Duration(1 << (a-1)), multiplied in
int64 (retriever.go line 97).  The product wraps: it is the exact value
retryBaseDelay * 2^(a-1) up to attempt 35, turns negative at attempt 36
(so time.After fires immediately), and is 0 from attempt 65 on. -/
def backoffDelay (a : Nat) : Int := wrap64 (retryBaseDelay * shiftOne (a - 1))

/-- The retry loop of retrieveFromURL.  responses gives the outcome of each
attempt, r is the number of remaining iterations, i the index of the next
attempt, lastErr the Go lastErr variable, att the number of attempts issued
so far and ds the list of back-off delays slept so far. -/
def urlLoop (responses : Nat → AttemptOutcome) :
    Nat → Nat → Option UrlErr → Nat → List Int → UrlRun
  | 0, _, lastErr, att, ds =>
      { outcome := match lastErr with
          | some e => .failure e
          | none => .nilNil
        attempts := att, delays := ds }
  | r + 1, i, _lastErr, att, ds =>
      let ds' := if 0 < i then ds ++ [backoffDelay i] else ds
      match responses i with
      | .transportErr => urlLoop responses r (i + 1) (some .transport) (att + 1) ds'
      | .readErr => urlLoop responses r (i + 1) (some .readFail) (att + 1) ds'
      | .resp s b v =>
          if 500 ≤ s then
            urlLoop responses r (i + 1) (some (.server s)) (att + 1) ds'
          else if s ≠ 200 then
            { outcome := .failure (.badStatus s), attempts := att + 1, delays := ds' }
          else if v = false then
            { outcome := .failure .invalidJSON, attempts := att + 1, delays := ds' }
          else
            { outcome := .success b, attempts := att + 1, delays := ds' }

/-- maxAttempts := opts.Retries; if maxAttempts < 1 it is clamped to 1. -/
def maxAttempts (retries : Int) : Nat := if retries < 1 then 1 else retries.toNat

/-- retrieveFromURL as a function of the per-attempt outcomes and the
Retries option (an int in Go). -/
def retrieveFromURL (responses : Nat → AttemptOutcome) (retries : Int) : UrlRun :=
  urlLoop responses (maxAttempts retries) 0 none 0 []

/-! ## Retriever: Retrieve (cli/retriever/retriever.go, lines 178-278)

Retrieve runs its per-declaration work on an errgroup bounded by
opts.Concurrency, consulting a shared cache before dispatching each
declaration.  The embedding models the Concurrency = 1 executions:
errgroup.SetLimit(1) admits at most one task in flight, but g.Go returns
as soon as the worker is admitted, so the main loop's cache.get for the
next declaration (line 216) races the in-flight task's fetch and
cache.set (lines 258-259); only the next g.Go call waits on the limiter.
The race is resolved by an explicit schedule parameter: sched i tells
whether the in-flight task (if any) completed before declaration i's
cache lookup, so a shared key can be fetched more than once when a lookup
overtakes the in-flight write.  A batch aborts at the first failing fetch
(the errgroup cancels the context; the claims below only exercise
all-successful and inline runs).  The source payload of a declaration is
modelled as a sum, matching the shapes the config parser produces (string
for url/file, raw JSON for inline); filepath.Join(filepath.Dir
configPath, p) is the joinRel parameter of the environment. -/

inductive Source where
  | url (u : String) : Source
  | file (p : String) : Source
  | inline (j : String) : Source
deriving DecidableEq

def Source.isRemote : Source → Bool
  | .url _ => true
  | .file _ => true
  | .inline _ => false

structure Declaration where
  namespace_ : String
  id : String
  source : Source
  adapter : String
  configPath : String
deriving DecidableEq

/-- Declaration.Key: "namespace:id". -/
def Declaration.key (d : Declaration) : String := d.namespace_ ++ ":" ++ d.id

structure RetrievedSchema where
  namespace_ : String
  id : String
  schema : String
  adapter : String
deriving DecidableEq

/-- The I/O environment of Retrieve: deterministic fetchers for URLs and
files, and the resolution of a file path against the directory of the
declaring config (filepath.Join of filepath.Dir). -/
structure RetrieveEnv where
  fetchURL : String → Except String String
  readFile : String → Except String String
  joinRel : String → String → String

/-- Cache key construction of Retrieve: "url:" + url, "file:" + resolved
path, or "json:" + namespace:id for inline JSON. -/
def cacheKey (env : RetrieveEnv) (d : Declaration) : String :=
  match d.source with
  | .url u => "url:" ++ u
  | .file p => "file:" ++ env.joinRel d.configPath p
  | .inline _ => "json:" ++ d.key

/-- One dispatched task: the fetch result together with the number of
underlying retrieval operations it issues (1 for a URL fetch or file read,
0 for inline JSON, which is passed through). -/
def runFetch (env : RetrieveEnv) (d : Declaration) : Except String String × Nat :=
  match d.source with
  | .url u => (env.fetchURL u, 1)
  | .file p => (env.readFile (env.joinRel d.configPath p), 1)
  | .inline j => (.ok j, 0)

def lookupCache : List (String × String) → String → Option String
  | [], _ => none
  | (k, v) :: rest, q => if k = q then some v else lookupCache rest q

/-- The cache as seen by declaration i's lookup: the (at most one)
in-flight task's write is visible exactly when the schedule says the task
completed before the lookup. -/
def viewCache (sched : Nat → Bool) (i : Nat) (cache : List (String × String)) :
    Option (String × String) → List (String × String)
  | some kv => if sched i then kv :: cache else cache
  | none => cache

/-- The task still in flight after declaration i's lookup. -/
def viewPending (sched : Nat → Bool) (i : Nat) :
    Option (String × String) → Option (String × String)
  | some kv => if sched i then none else some kv
  | none => none

/-- The cache once the in-flight write (if any) has landed - the state
g.Go observes after waiting on the concurrency limiter. -/
def landPending (cache : List (String × String)) :
    Option (String × String) → List (String × String)
  | some kv => kv :: cache
  | none => cache

/-- The dispatch loop of Retrieve at Concurrency = 1.  pending is the (at
most one) in-flight task, recorded as the cache entry it will write; the
schedule decides whether it completes before each declaration's cache
lookup.  On a miss the loop calls g.Go, which waits for the in-flight
task (its write lands) and admits a new one; a failing fetch aborts the
batch.  The second component counts the underlying URL fetches and file
reads. -/
def retrieveLoop (env : RetrieveEnv) (noCache : Bool) (sched : Nat → Bool) :
    List Declaration → Nat → List (String × String) → Option (String × String) →
    Nat → Except String (List RetrievedSchema) × Nat
  | [], _, _, _, n => (.ok [], n)
  | d :: rest, i, cache, pending, n =>
      match (if noCache then none
             else lookupCache (viewCache sched i cache pending) (cacheKey env d)) with
      | some b =>
          match retrieveLoop env noCache sched rest (i + 1)
              (viewCache sched i cache pending) (viewPending sched i pending) n with
          | (.ok rs, m) => (.ok (⟨d.namespace_, d.id, b, d.adapter⟩ :: rs), m)
          | (.error e, m) => (.error e, m)
      | none =>
          match runFetch env d with
          | (.error e, c) => (.error ("failed to retrieve schema " ++ d.key ++ ": " ++ e), n + c)
          | (.ok b, c) =>
              match retrieveLoop env noCache sched rest (i + 1) (landPending cache pending)
                  (if noCache then none else some (cacheKey env d, b)) (n + c) with
              | (.ok rs, m) => (.ok (⟨d.namespace_, d.id, b, d.adapter⟩ :: rs), m)
              | (.error e, m) => (.error e, m)

/-- Retrieve.  An empty declaration list returns (nil, nil) before any
cache construction or worker dispatch. -/
def Retrieve (env : RetrieveEnv) (noCache : Bool) (sched : Nat → Bool)
    (decls : List Declaration) : Except String (List RetrievedSchema) × Nat :=
  if decls.isEmpty then (.ok [], 0)
  else retrieveLoop env noCache sched decls 0 [] none 0

/-! ## Language registry (cli/language/language.go, lines 228-353)

Only the data consulted by the config parser is needed here: the language
name and the schema-URL extension keying languageBySchemaExt. -/

structure LanguageReg where
  name : String
  schemaExt : String
deriving DecidableEq

def XSchemaBaseURL : String := "https://xschema.dev/schemas/"

def tsReg : LanguageReg := ⟨"typescript", "ts.jsonc"⟩

def pyReg : LanguageReg := ⟨"python", "py.jsonc"⟩

def registryLanguages : List LanguageReg := [tsReg, pyReg]

/-- IsXSchemaURL: prefix test against the xschema base URL (byte-level in
Go; character-level here, which coincides on the ASCII prefix). -/
def IsXSchemaURL (url : String) : Bool := XSchemaBaseURL.toList.isPrefixOf url.toList

/-- BySchemaURL: prefix test, then lookup of the trimmed extension in the
languageBySchemaExt table. -/
def BySchemaURL (url : String) : Option LanguageReg :=
  if IsXSchemaURL url then
    registryLanguages.find?
      (fun l => l.schemaExt.toList = url.toList.drop XSchemaBaseURL.toList.length)
  else none

def ByName (n : String) : Option LanguageReg :=
  registryLanguages.find? (fun l => l.name = n)

/-! ## Config parser (parser package: Parse, parseConfigFile,
mergeDeclarations)

A candidate file is modelled as its path together with the outcome of
hujson.Standardize + json.Unmarshal into ConfigFileRaw (none when either
step fails).  A schema entry carries its source as the same sum used by the
retriever. -/

structure SchemaEntryRaw where
  id : String
  source : Source
  adapter : String
deriving DecidableEq

structure ConfigFileRaw where
  schema : String
  namespace_ : String
  schemas : List SchemaEntryRaw
deriving DecidableEq

structure ConfigFile where
  path : String
  namespace_ : String
  language : LanguageReg
  schemas : List SchemaEntryRaw
deriving DecidableEq

structure RawFile where
  path : String
  parsed : Option ConfigFileRaw
deriving DecidableEq

/-- filepath.Base on the character list of a path. -/
def baseL (l : List Char) : List Char :=
  if l = [] then ['.']
  else
    let noSlash := (l.reverse.dropWhile (fun c => c = '/')).reverse
    if noSlash = [] then ['/']
    else (noSlash.reverse.takeWhile (fun c => c ≠ '/')).reverse

/-- filepath.Ext on the character list of a path: the suffix beginning at
the final dot of the last path element, empty when there is none. -/
def extL (l : List Char) : List Char :=
  let revTail := l.reverse.takeWhile (fun c => c ≠ '/')
  let beforeDot := revTail.takeWhile (fun c => c ≠ '.')
  if beforeDot.length = revTail.length then []
  else '.' :: beforeDot.reverse

/-- strings.TrimSuffix on character lists. -/
def trimSuffixL (l suffix_ : List Char) : List Char :=
  if suffix_.isSuffixOf l then l.take (l.length - suffix_.length) else l

/-- The namespace derived from a config path: TrimSuffix(Base(path),
Ext(Base(path))). -/
def fileStem (p : String) : String :=
  let b := baseL p.toList
  ⟨trimSuffixL b (extL b)⟩

/-- parseConfigFile.  Returns ok none when the document does not bear an
xschema $schema (silently skipped by the caller), a hard error naming the
URL when the $schema is in the xschema namespace but unknown, and the
parsed ConfigFile otherwise. -/
def parseConfigFile (f : RawFile) : Except String (Option ConfigFile) :=
  match f.parsed with
  | none => .error "invalid JSON/JSONC"
  | some raw =>
      if IsXSchemaURL raw.schema = false then .ok none
      else
        match BySchemaURL raw.schema with
        | none => .error ("unknown xschema language in $schema: " ++ raw.schema)
        | some lang =>
            let ns := if raw.namespace_ = "" then fileStem f.path else raw.namespace_
            .ok (some ⟨f.path, ns, lang, raw.schemas⟩)

/-- The duplicate-ID error of mergeDeclarations, kept structured; message
renders the exact fmt.Errorf format string. -/
structure DupErr where
  id : String
  namespace_ : String
  firstPath : String
  secondPath : String
deriving DecidableEq

def DupErr.message (e : DupErr) : String :=
  "duplicate schema ID \"" ++ e.id ++ "\" in namespace \"" ++ e.namespace_ ++
    "\": defined in both " ++ e.firstPath ++ " and " ++ e.secondPath

/-- The seenIDs structure of mergeDeclarations, flattened to an association
list from (namespace, id) to the first declaring config path. -/
def lookupSeen : List ((String × String) × String) → (String × String) → Option String
  | [], _ => none
  | (k, v) :: rest, q => if k = q then some v else lookupSeen rest q

/-- The inner loop of mergeDeclarations over the schema entries of one
config file. -/
def mergeEntries (cfgNs cfgPath : String) :
    List SchemaEntryRaw → List ((String × String) × String) →
    Except DupErr (List ((String × String) × String) × List Declaration)
  | [], seen => .ok (seen, [])
  | e :: rest, seen =>
      match lookupSeen seen (cfgNs, e.id) with
      | some existingPath => .error ⟨e.id, cfgNs, existingPath, cfgPath⟩
      | none =>
          match mergeEntries cfgNs cfgPath rest (((cfgNs, e.id), cfgPath) :: seen) with
          | .error er => .error er
          | .ok (seenF, ds) =>
              .ok (seenF, ⟨cfgNs, e.id, e.source, e.adapter, cfgPath⟩ :: ds)

/-- The outer loop of mergeDeclarations over the config files, in discovery
order. -/
def mergeConfigs :
    List ConfigFile → List ((String × String) × String) → Except DupErr (List Declaration)
  | [], _ => .ok []
  | c :: rest, seen =>
      match mergeEntries c.namespace_ c.path c.schemas seen with
      | .error e => .error e
      | .ok (seen', ds) =>
          match mergeConfigs rest seen' with
          | .error e => .error e
          | .ok ds' => .ok (ds ++ ds')

/-- mergeDeclarations: flat list of declarations, or the first duplicate
(namespace, id) found, citing both declaring config paths. -/
def mergeDeclarations (configs : List ConfigFile) : Except DupErr (List Declaration) :=
  mergeConfigs configs []

def declKey (d : Declaration) : String × String := (d.namespace_, d.id)

/-- All (namespace, id) pairs of the schema entries of the given configs,
in merge order. -/
def flatKeys (configs : List ConfigFile) : List (String × String) :=
  configs.flatMap (fun c => c.schemas.map (fun e => (c.namespace_, e.id)))

/-- The per-file collection loop of Parse: files whose parseConfigFile
errors are skipped with only a verbose log, files without an xschema
$schema are skipped silently. -/
def collectConfigs : List RawFile → List ConfigFile
  | [] => []
  | f :: rest =>
      match parseConfigFile f with
      | .error _ => collectConfigs rest
      | .ok none => collectConfigs rest
      | .ok (some c) => c :: collectConfigs rest

inductive ParseErr where
  | noConfigs (root : String) : ParseErr
  | multipleLanguages (names : List String) : ParseErr
  | unknownLanguage (l : String) : ParseErr
  | dup (e : DupErr) : ParseErr
deriving DecidableEq

structure ParseResult where
  language : LanguageReg
  configs : List ConfigFile
  declarations : List Declaration
deriving DecidableEq

/-- The distinct language names of the collected configs, in first-seen
order (Go builds this set by ranging over a map; only its membership is
ever observable in the error message). -/
def distinctLangNames (configs : List ConfigFile) : List String :=
  (configs.map (fun c => c.language.name)).dedup

/-- Parse (minus file discovery, which is handed in as the candidate
list): collect configs, resolve the language conflict against the filter,
and merge declarations. -/
def Parse (projectRoot : String) (files : List RawFile) (langFilter : String) :
    Except ParseErr ParseResult :=
  let configs := collectConfigs files
  match configs with
  | [] => .error (.noConfigs projectRoot)
  | c0 :: restC =>
      let conflict := (c0 :: restC).any (fun c => c.language.name ≠ c0.language.name)
      if conflict then
        if langFilter = "" then
          .error (.multipleLanguages (distinctLangNames (c0 :: restC)))
        else
          let filtered := (c0 :: restC).filter (fun c => c.language.name = langFilter)
          match ByName langFilter with
          | none => .error (.unknownLanguage langFilter)
          | some lang =>
              match mergeDeclarations filtered with
              | .error e => .error (.dup e)
              | .ok ds => .ok ⟨lang, filtered, ds⟩
      else
        match mergeDeclarations (c0 :: restC) with
        | .error e => .error (.dup e)
        | .ok ds => .ok ⟨c0.language, c0 :: restC, ds⟩

/-! ## Generator: Generate (cli/generator/generator.go, lines 44-98)

The subprocess round trip is abstracted by its observables: whether the
runner binary resolves, the exit status with captured stderr, and the
result of json.Unmarshal on the captured stdout (none when stdout is not
valid JSON for a list of GenerateOutput).  The body of Generate performs no
further validation: the decoded list is returned verbatim, whatever its
length or contents. -/

structure GenerateInput where
  namespace_ : String
  id : String
  schema : String
deriving DecidableEq

structure GenerateOutput where
  namespace_ : String
  id : String
  schema : String
  type_ : String
  imports : List String
deriving DecidableEq

def Generate (inputs : List GenerateInput) (runnerFound : Bool) (exitCode : Nat)
    (stderr : String) (decodedStdout : Option (List GenerateOutput)) :
    Except String (List GenerateOutput) :=
  if runnerFound = false then .error "runner not found"
  else if exitCode ≠ 0 then .error ("adapter failed: " ++ stderr)
  else
    match decodedStdout with
    | none => .error "invalid output"
    | some outs =>
        let _ := inputs
        .ok outs

/-! ## Go string primitives on character lists

The injector and the import mergers do byte-level surgery; the embedding
works on List Char (the sources at play are ASCII, where Go byte indices
and character indices coincide). -/

/-- unicode.IsSpace restricted to the ASCII range, as used by
strings.TrimSpace. -/
def isGoSpace (c : Char) : Bool :=
  c = ' ' || c = '\t' || c = '\n' || c = '\x0b' || c = '\x0c' || c = '\r'

/-- The RE2 character class backslash-s, which is [\t\n\x0c\r ]. -/
def isReSpace (c : Char) : Bool :=
  c = '\t' || c = '\n' || c = '\x0c' || c = '\r' || c = ' '

def trimLeftL (l : List Char) : List Char := l.dropWhile isGoSpace

def trimRightL (l : List Char) : List Char := (l.reverse.dropWhile isGoSpace).reverse

/-- strings.TrimSpace. -/
def trimSpaceL (l : List Char) : List Char := trimRightL (trimLeftL l)

/-- strings.TrimPrefix. -/
def trimPreL (pre l : List Char) : List Char :=
  if pre.isPrefixOf l then l.drop pre.length else l

/-- strings.Contains: nd occurs as a contiguous run inside hay. -/
def containsSub : List Char → List Char → Bool
  | [], nd => nd.isEmpty
  | c :: rest, nd => nd.isPrefixOf (c :: rest) || containsSub rest nd

def apos : Char := '\''

def isQuoteChar (c : Char) : Bool := c = '"' || c = apos

/-! ## injectSchemasKeyBrace (cli/language/language.go, lines 502-537) -/

/-- The interior slice configContent[openIdx+1 : len-1] (the Go local
inner of injectSchemasKeyBrace). -/
def kbInner (s : List Char) (openIdx : Nat) : List Char :=
  (s.drop (openIdx + 1)).take (s.length - 1 - (openIdx + 1))

/-- The branch structure of injectSchemasKeyBrace once the interior inner
and its trimmed form t (the Go local innerTrimmed) are in hand: the
already-present checks test only a prefix of t, and insertion rebuilds the
object from the interior. -/
def kbBranch (s inner t : List Char) : List Char :=
  if "schemas".toList.isPrefixOf t &&
      (t.length = 7 || ",".toList.isPrefixOf (t.drop 7) || "\x7d".toList.isPrefixOf (t.drop 7)) then
    s
  else if "schemas:".toList.isPrefixOf t then s
  else if "\"schemas\":".toList.isPrefixOf t ||
      (apos :: ("schemas".toList ++ [apos, ':'])).isPrefixOf t then s
  else if t = [] then "\x7b schemas \x7d".toList
  else "\x7b schemas, ".toList ++ inner ++ " \x7d".toList

/-- injectSchemasKeyBrace: finds the first opening brace, checks whether
the trimmed interior starts with a schemas key in shorthand, pair, or
quoted-pair form, and otherwise inserts schemas as the first key. -/
def injectSchemasKeyBrace (configContent : List Char) : List Char :=
  match configContent.findIdx? (fun c => c = '{') with
  | none => configContent
  | some openIdx =>
      if configContent.length < openIdx + 2 then "\x7b schemas \x7d".toList
      else
        kbBranch configContent (kbInner configContent openIdx)
          (trimSpaceL (kbInner configContent openIdx))

/-! ## The two client-factory patterns of injectSchemasIntoConfig
(cli/injector/injector.go, lines 171-209)

The Go code applies regexp.FindStringSubmatchIndex with the patterns
createXSchemaClient\s*\(\s*(\x7b[^\x7d]*\x7d)\s*\) and its
create_xschema_client twin.  On these patterns RE2 matching is
backtracking-free (each quantified class is disjoint from the literal that
follows it), so the leftmost match is computed by direct scanning: at each
start position the factory name, optional spaces, an opening parenthesis,
optional spaces, a brace-delimited run without closing braces, optional
spaces and a closing parenthesis are consumed in order. -/

/-- Attempts the factory pattern at the head of s; returns the span of the
capture group (the brace-delimited object) relative to this start. -/
def tryFactoryAt (fname : List Char) (s : List Char) : Option (Nat × Nat) :=
  if fname.isPrefixOf s then
    let r1 := s.drop fname.length
    let w1 := (r1.takeWhile isReSpace).length
    match r1.drop w1 with
    | '(' :: r3 =>
        let w2 := (r3.takeWhile isReSpace).length
        match r3.drop w2 with
        | '{' :: r5 =>
            let inner := r5.takeWhile (fun c => c ≠ '}')
            match r5.drop inner.length with
            | '}' :: r7 =>
                let w3 := (r7.takeWhile isReSpace).length
                match r7.drop w3 with
                | ')' :: _ =>
                    let cs := fname.length + w1 + 1 + w2
                    some (cs, cs + 1 + inner.length + 1)
                | _ => none
            | _ => none
        | _ => none
    | _ => none
  else none

/-- Leftmost application of a positional matcher. -/
def scanFirst {α : Type} (tryAt : List Char → Option α) : List Char → Option α
  | [] => tryAt []
  | c :: rest =>
      match tryAt (c :: rest) with
      | some r => some r
      | none => scanFirst tryAt rest

/-- Offset-adjusting leftmost search for the factory pattern. -/
def findFactoryFrom (fname : List Char) : List Char → Nat → Option (Nat × Nat)
  | [], _ => none
  | c :: rest, off =>
      match tryFactoryAt fname (c :: rest) with
      | some (a, b) => some (off + a, off + b)
      | none => findFactoryFrom fname rest (off + 1)

def findFactorySpan (fname s : List Char) : Option (Nat × Nat) :=
  findFactoryFrom fname s 0

def tsFactoryName : List Char := "createXSchemaClient".toList

def pyFactoryName : List Char := "create_xschema_client".toList

/-- One iteration of the pattern loop of injectSchemasIntoConfig: on a
match, the captured object is passed through InjectSchemasKey and spliced
back only when it changed. -/
def tryPatternInject (content fname : List Char) : Option (List Char × Bool) :=
  match findFactorySpan fname content with
  | none => none
  | some (cs, ce) =>
      let configContent := (content.drop cs).take (ce - cs)
      let newConfig := injectSchemasKeyBrace configContent
      if newConfig = configContent then some (content, true)
      else some (content.take cs ++ newConfig ++ content.drop ce, true)

/-- injectSchemasIntoConfig.  hasKeyFn models InjectSchemasKey != nil;
both factory patterns are tried in order regardless of the language. -/
def injectSchemasIntoConfig (hasKeyFn : Bool) (content : List Char) : List Char × Bool :=
  if hasKeyFn = false then (content, false)
  else
    match tryPatternInject content tsFactoryName with
    | some r => r
    | none =>
        match tryPatternInject content pyFactoryName with
        | some r => r
        | none => (content, false)

/-! ## The import-line patterns of injectSchemasImport

ImportPattern is (?m)^import\s+.*$ for TypeScript and
(?m)^(?:import\s+|from\s+).*$ for Python.  A match is anchored at a line
start, consumes the keyword, a maximal nonempty run of RE2 whitespace
(which may cross newlines) and then the remainder of the current line;
FindAllStringIndex collects successive non-overlapping leftmost matches. -/

/-- Match length of one import-pattern match anchored at the head of s for
one keyword. -/
def tryKeywordAt (kw s : List Char) : Option Nat :=
  if kw.isPrefixOf s then
    let r := s.drop kw.length
    let w := (r.takeWhile isReSpace).length
    if w = 0 then none
    else
      let lineRest := (r.drop w).takeWhile (fun c => c ≠ '\n')
      some (kw.length + w + lineRest.length)
  else none

def tryImportAt : List (List Char) → List Char → Option Nat
  | [], _ => none
  | kw :: kws, s =>
      match tryKeywordAt kw s with
      | some n => some n
      | none => tryImportAt kws s

/-- Scans the line starts of rest (whose first character sits at absolute
offset off) and collects the non-overlapping import-pattern spans.  The
fuel argument is a structural bound on the recursion; every call consumes
at least one character of rest, so rest.length + 1 fuel always suffices. -/
def importSpansFrom (kws : List (List Char)) : Nat → List Char → Nat → List (Nat × Nat)
  | 0, _, _ => []
  | fuel + 1, rest, off =>
      match tryImportAt kws rest with
      | some n =>
          match rest.drop n with
          | [] => [(off, off + n)]
          | _ :: tail => (off, off + n) :: importSpansFrom kws fuel tail (off + n + 1)
      | none =>
          let k := (rest.takeWhile (fun c => c ≠ '\n')).length
          match rest.drop k with
          | [] => []
          | _ :: tail => importSpansFrom kws fuel tail (off + k + 1)

def findImportSpans (kws : List (List Char)) (content : List Char) : List (Nat × Nat) :=
  importSpansFrom kws (content.length + 1) content 0

/-! ## Client-file injection (cli/injector/injector.go, lines 126-247) -/

/-- The per-language injection capabilities consulted by InjectClient. -/
structure LangInj where
  buildSchemasImport : Option (List Char → List Char)
  importKeywords : Option (List (List Char))
  injectSchemasKeyPresent : Bool
  outputFile : List Char

/-- buildTSSchemasImport. -/
def buildTSSchemasImport (importPath : List Char) : List Char :=
  "import \x7b schemas \x7d from \"".toList ++ importPath ++ "\";".toList

/-- buildPySchemasImport: path separators become dots, one leading dot is
trimmed. -/
def buildPySchemasImport (importPath : List Char) : List Char :=
  let module_ := trimPreL ['.'] (importPath.map (fun c => if c = '/' then '.' else c))
  "from ".toList ++ module_ ++ " import schemas".toList

def tsInj : LangInj :=
  { buildSchemasImport := some buildTSSchemasImport
    importKeywords := some ["import".toList]
    injectSchemasKeyPresent := true
    outputFile := "xschema.gen.ts".toList }

def pyInj : LangInj :=
  { buildSchemasImport := some buildPySchemasImport
    importKeywords := some ["import".toList, "from".toList]
    injectSchemasKeyPresent := true
    outputFile := "__init__.py".toList }

/-- injectSchemasImport: presence check on the path (with and without the
./ prefix, the Go local normalized), then insertion of the built line (the
Go local importLine) after the end of the last import-pattern match (the
Go local insertPos), or prepending when there is none. -/
def injectSchemasImport (lang : LangInj) (content importPath : List Char) : List Char :=
  match lang.buildSchemasImport with
  | none => content
  | some build =>
      if containsSub content importPath ||
          containsSub content (trimPreL "./".toList importPath) then content
      else if build importPath = [] then content
      else
        match lang.importKeywords with
        | none => build importPath ++ '\n' :: content
        | some kws =>
            match findImportSpans kws content with
            | [] => build importPath ++ '\n' :: content
            | m :: ms =>
                content.take ((m :: ms).getLastD (0, 0)).2 ++
                  '\n' :: (build importPath ++ content.drop ((m :: ms).getLastD (0, 0)).2)

/-- The import path InjectClient builds:
"./" + Base(outDir) + "/" + TrimSuffix(outputFile, Ext(outputFile)). -/
def clientImportPath (lang : LangInj) (outDir : List Char) : List Char :=
  "./".toList ++ baseL outDir ++ '/' :: trimSuffixL lang.outputFile (extL lang.outputFile)

/-- InjectClient at the level of the file content: config-object injection
followed by import injection. -/
def injectClientContent (lang : LangInj) (outDir content : List Char) : List Char :=
  let importPath := clientImportPath lang outDir
  let step1 := (injectSchemasIntoConfig lang.injectSchemasKeyPresent content).1
  injectSchemasImport lang step1 importPath

/-- InjectClient writes the file back exactly when the content changed. -/
def injectClientWrites (lang : LangInj) (outDir content : List Char) : Bool :=
  injectClientContent lang outDir content ≠ content

/-! ## Import mergers (language package: MergeTSImports, MergePyImports)

The three TypeScript patterns and the two Python patterns are again
applied leftmost; on each of them RE2 finds the match without backtracking
(every quantified class is disjoint from what follows it), so direct
scanning is faithful.  The Go maps are modelled as association lists in
first-insertion order; every place the code ranges over a map is followed
by a sort, so the embedding is order-faithful. -/

def wordChar (c : Char) : Bool := c.isAlphanum || c = '_'

/-- namedRe: import\s*\x7b([^\x7d]+)\x7d\s*from\s*[quote]([^quotes]+)[quote],
applied at the head of s; returns (raw specifier run, source). -/
def tryNamedAt (s : List Char) : Option (List Char × List Char) :=
  if "import".toList.isPrefixOf s then
    let r1 := s.drop 6
    let w1 := (r1.takeWhile isReSpace).length
    match r1.drop w1 with
    | '{' :: r2 =>
        let names := r2.takeWhile (fun c => c ≠ '}')
        if names = [] then none
        else
          match r2.drop names.length with
          | '}' :: r3 =>
              let w2 := (r3.takeWhile isReSpace).length
              let r4 := r3.drop w2
              if "from".toList.isPrefixOf r4 then
                let r5 := r4.drop 4
                let w3 := (r5.takeWhile isReSpace).length
                match r5.drop w3 with
                | q :: r6 =>
                    if isQuoteChar q then
                      let src := r6.takeWhile (fun c => !isQuoteChar c)
                      if src = [] then none
                      else
                        match r6.drop src.length with
                        | q2 :: _ => if isQuoteChar q2 then some (names, src) else none
                        | [] => none
                    else none
                | [] => none
              else none
          | _ => none
    | _ => none
  else none

/-- defaultRe: import\s+(\w+)\s+from\s*[quote]([^quotes]+)[quote]; returns
(default name, source). -/
def tryDefaultAt (s : List Char) : Option (List Char × List Char) :=
  if "import".toList.isPrefixOf s then
    let r1 := s.drop 6
    let w1 := (r1.takeWhile isReSpace).length
    if w1 = 0 then none
    else
      let r2 := r1.drop w1
      let nm := r2.takeWhile wordChar
      if nm = [] then none
      else
        let r3 := r2.drop nm.length
        let w2 := (r3.takeWhile isReSpace).length
        if w2 = 0 then none
        else
          let r4 := r3.drop w2
          if "from".toList.isPrefixOf r4 then
            let r5 := r4.drop 4
            let w3 := (r5.takeWhile isReSpace).length
            match r5.drop w3 with
            | q :: r6 =>
                if isQuoteChar q then
                  let src := r6.takeWhile (fun c => !isQuoteChar c)
                  if src = [] then none
                  else
                    match r6.drop src.length with
                    | q2 :: _ => if isQuoteChar q2 then some (nm, src) else none
                    | [] => none
                else none
            | [] => none
          else none
  else none

/-- sideEffectRe: import\s*[quote]([^quotes]+)[quote]; returns the source. -/
def trySideAt (s : List Char) : Option (List Char) :=
  if "import".toList.isPrefixOf s then
    let r1 := s.drop 6
    let w1 := (r1.takeWhile isReSpace).length
    match r1.drop w1 with
    | q :: r2 =>
        if isQuoteChar q then
          let src := r2.takeWhile (fun c => !isQuoteChar c)
          if src = [] then none
          else
            match r2.drop src.length with
            | q2 :: _ => if isQuoteChar q2 then some src else none
            | [] => none
        else none
    | [] => none
  else none

/-- strings.Split on commas. -/
def splitOnComma : List Char → List (List Char)
  | [] => [[]]
  | c :: rest =>
      if c = ',' then [] :: splitOnComma rest
      else
        match splitOnComma rest with
        | s :: ss => (c :: s) :: ss
        | [] => [[c]]

/-- Appends a named specifier under its source, creating the entry at the
end on first sight (Go map insert; order never observed before sorting). -/
def upsertNames (m : List (List Char × List (List Char))) (src nm : List Char) :
    List (List Char × List (List Char)) :=
  match m with
  | [] => [(src, [nm])]
  | (k, v) :: rest =>
      if k = src then (k, v ++ [nm]) :: rest else (k, v) :: upsertNames rest src nm

/-- Sets the default-import name of a source (Go map assignment,
last-writer-wins). -/
def setDefault (m : List (List Char × List Char)) (src nm : List Char) :
    List (List Char × List Char) :=
  match m with
  | [] => [(src, nm)]
  | (k, v) :: rest =>
      if k = src then (k, nm) :: rest else (k, v) :: setDefault rest src nm

def lookupStr {β : Type} : List (List Char × β) → List Char → Option β
  | [], _ => none
  | (k, v) :: rest, q => if k = q then some v else lookupStr rest q

/-- Byte-lexicographic string order of sort.Strings / slices.Sort
(character codes compared as naturals; bytes and characters coincide on
ASCII). -/
def leStr : List Char → List Char → Bool
  | [], _ => true
  | _ :: _, [] => false
  | a :: as, b :: bs =>
      if a.toNat < b.toNat then true
      else if b.toNat < a.toNat then false
      else leStr as bs

/-- Ordered insertion under leStr. -/
def insertLe (x : List Char) : List (List Char) → List (List Char)
  | [] => [x]
  | y :: ys => if leStr x y then x :: y :: ys else y :: insertLe x ys

/-- The effect of sort.Strings / slices.Sort: the output is the sorted
permutation of the input, which is a unique list under the total order
leStr (equal elements are identical lists), so insertion sort computes
exactly it. -/
def sortStrings : List (List Char) → List (List Char)
  | [] => []
  | x :: xs => insertLe x (sortStrings xs)

/-- slices.Compact: removes consecutive duplicates. -/
def compactL : List (List Char) → List (List Char)
  | [] => []
  | [x] => [x]
  | x :: y :: rest => if x = y then compactL (y :: rest) else x :: compactL (y :: rest)

def joinSep (sep : List Char) : List (List Char) → List Char
  | [] => []
  | [x] => x
  | x :: y :: rest => x ++ sep ++ joinSep sep (y :: rest)

structure TSAcc where
  sourceToNames : List (List Char × List (List Char))
  defaultImports : List (List Char × List Char)
  sideEffects : List (List Char)

/-- Adds the trimmed nonempty specifiers of one named import. -/
def addNames (acc : List (List Char × List (List Char))) (src : List Char)
    (raw : List Char) : List (List Char × List (List Char)) :=
  (splitOnComma raw).foldl
    (fun m nm =>
      let nmT := trimSpaceL nm
      if nmT = [] then m else upsertNames m src nmT)
    acc

/-- The parse loop of MergeTSImports: named, then default, then
side-effect patterns. -/
def tsParseLoop : List (List Char) → TSAcc → TSAcc
  | [], acc => acc
  | imp :: rest, acc =>
      let impT := trimSpaceL imp
      if impT = [] then tsParseLoop rest acc
      else
        match scanFirst tryNamedAt impT with
        | some (names, src) =>
            tsParseLoop rest { acc with sourceToNames := addNames acc.sourceToNames src names }
        | none =>
            match scanFirst tryDefaultAt impT with
            | some (nm, src) =>
                tsParseLoop rest { acc with defaultImports := setDefault acc.defaultImports src nm }
            | none =>
                match scanFirst trySideAt impT with
                | some src => tsParseLoop rest { acc with sideEffects := acc.sideEffects ++ [src] }
                | none => tsParseLoop rest acc

/-- The statement built for one sorted source of the named/default
section. -/
def tsStmtFor (named : List (List Char × List (List Char)))
    (defaults : List (List Char × List Char)) (src : List Char) : Option (List Char) :=
  let parts :=
    (match lookupStr defaults src with
     | some d => [d]
     | none => []) ++
    (match lookupStr named src with
     | some ns => if ns.length > 0 then ["\x7b ".toList ++ joinSep ", ".toList ns ++ " \x7d".toList] else []
     | none => [])
  if parts = [] then none
  else some ("import ".toList ++ joinSep ", ".toList parts ++ " from \"".toList ++ src ++ "\"".toList)

/-- The sorted source list of the named/default section: named sources
plus default-only sources. -/
def tsSources (named : List (List Char × List (List Char)))
    (defaults : List (List Char × List Char)) : List (List Char) :=
  sortStrings
    (named.map Prod.fst ++
      (defaults.map Prod.fst).filter (fun s => (lookupStr named s).isNone))

/-- The side-effect statements, sorted and deduplicated, which Go emits
first. -/
def tsSideStmts (sideEffects : List (List Char)) : List (List Char) :=
  (compactL (sortStrings sideEffects)).map
    (fun src => "import \"".toList ++ src ++ "\"".toList)

/-- The named/default statements in sorted source order. -/
def tsMainStmts (named : List (List Char × List (List Char)))
    (defaults : List (List Char × List Char)) : List (List Char) :=
  (tsSources named defaults).filterMap (tsStmtFor named defaults)

/-- Per-source specifier dedup: slices.Sort then slices.Compact. -/
def dedupNames (named : List (List Char × List (List Char))) :
    List (List Char × List (List Char)) :=
  named.map (fun kv => (kv.1, compactL (sortStrings kv.2)))

/-- MergeTSImports. -/
def MergeTSImports (imports : List (List Char)) : List Char :=
  if imports = [] then []
  else
    let acc := tsParseLoop imports ⟨[], [], []⟩
    let named := dedupNames acc.sourceToNames
    joinSep ['\n'] (tsSideStmts acc.sideEffects ++ tsMainStmts named acc.defaultImports)

/-- fromRe: from\s+(\S+)\s+import\s+(.+); returns (module, raw name run). -/
def tryFromAt (s : List Char) : Option (List Char × List Char) :=
  if "from".toList.isPrefixOf s then
    let r1 := s.drop 4
    let w1 := (r1.takeWhile isReSpace).length
    if w1 = 0 then none
    else
      let r2 := r1.drop w1
      let md := r2.takeWhile (fun c => !isReSpace c)
      if md = [] then none
      else
        let r3 := r2.drop md.length
        let w2 := (r3.takeWhile isReSpace).length
        if w2 = 0 then none
        else
          let r4 := r3.drop w2
          if "import".toList.isPrefixOf r4 then
            let r5 := r4.drop 6
            let w3 := (r5.takeWhile isReSpace).length
            if w3 = 0 then none
            else
              let names := (r5.drop w3).takeWhile (fun c => c ≠ '\n')
              if names = [] then none else some (md, names)
          else none
  else none

/-- importRe: ^import\s+(\S+), anchored at the start of the trimmed
string. -/
def pyImportMatch (s : List Char) : Option (List Char) :=
  if "import".toList.isPrefixOf s then
    let r1 := s.drop 6
    let w := (r1.takeWhile isReSpace).length
    if w = 0 then none
    else
      let md := (r1.drop w).takeWhile (fun c => !isReSpace c)
      if md = [] then none else some md
  else none

structure PyAcc where
  fromImports : List (List Char × List (List Char))
  directImports : List (List Char)

/-- The parse loop of MergePyImports. -/
def pyParseLoop : List (List Char) → PyAcc → PyAcc
  | [], acc => acc
  | imp :: rest, acc =>
      let impT := trimSpaceL imp
      if impT = [] then pyParseLoop rest acc
      else
        match scanFirst tryFromAt impT with
        | some (md, names) =>
            pyParseLoop rest { acc with fromImports := addNames acc.fromImports md names }
        | none =>
            match pyImportMatch impT with
            | some md => pyParseLoop rest { acc with directImports := acc.directImports ++ [md] }
            | none => pyParseLoop rest acc

/-- The plain import statements, sorted and deduplicated, which Go emits
first. -/
def pyDirectStmts (direct : List (List Char)) : List (List Char) :=
  (compactL (sortStrings direct)).map (fun md => "import ".toList ++ md)

/-- The from-import statements, one per module in sorted module order. -/
def pyFromStmts (fromImports : List (List Char × List (List Char))) : List (List Char) :=
  (sortStrings (fromImports.map Prod.fst)).filterMap
    (fun md =>
      match lookupStr fromImports md with
      | some ns => some ("from ".toList ++ md ++ " import ".toList ++ joinSep ", ".toList ns)
      | none => none)

/-- MergePyImports. -/
def MergePyImports (imports : List (List Char)) : List Char :=
  if imports = [] then []
  else
    let acc := pyParseLoop imports ⟨[], []⟩
    let fromD := dedupNames acc.fromImports
    joinSep ['\n'] (pyDirectStmts acc.directImports ++ pyFromStmts fromD)

/-! ## Lemmas about the retry loop -/

/-- The delay inserted at the top of iteration i (none before iteration
0). -/
def dStep (i : Nat) : List Int := if 0 < i then [backoffDelay i] else []

/-- The delays inserted by iterations i, i+1, ..., i+r-1. -/
def delayList (i r : Nat) : List Int :=
  ((List.range' i r).filter (fun j => decide (0 < j))).map backoffDelay

theorem delayList_zero (i : Nat) : delayList i 0 = [] := rfl

theorem delayList_succ (i r : Nat) :
    delayList i (r + 1) = dStep i ++ delayList (i + 1) r := by
  simp only [delayList, dStep, List.range']
  by_cases h : 0 < i <;> simp [h]

theorem delayList_one (i : Nat) : delayList i 1 = dStep i := by
  rw [delayList_succ, delayList_zero, List.append_nil]

theorem wrap64_eq {n : Int} (h1 : -9223372036854775808 ≤ n)
    (h2 : n < 9223372036854775808) : wrap64 n = n := by
  unfold wrap64
  omega

/-- Up to attempt 35 the int64 product has not yet wrapped, so the delay
is the exact retryBaseDelay * 2^(i-1). -/
theorem backoffDelay_eq_exact {i : Nat} (h1 : 1 ≤ i) (h2 : i ≤ 35) :
    backoffDelay i = 500000000 * 2 ^ (i - 1) := by
  have hp1 : (0:Int) < 2 ^ (i - 1) := pow_pos (by norm_num) _
  have hp2 : (2:Int) ^ (i - 1) ≤ 17179869184 := by
    calc (2:Int) ^ (i - 1) ≤ 2 ^ 34 := pow_le_pow_right₀ (by norm_num) (by omega)
    _ = 17179869184 := by norm_num
  unfold backoffDelay shiftOne retryBaseDelay
  have hin : wrap64 ((2:Int) ^ (i - 1)) = 2 ^ (i - 1) := wrap64_eq (by omega) (by omega)
  rw [if_pos (show i - 1 < 64 from by omega), hin, wrap64_eq (by omega) (by omega)]

theorem backoffDelay_le {i j : Nat} (h1 : 1 ≤ i) (hij : i ≤ j) (hj : j ≤ 35) :
    backoffDelay i ≤ backoffDelay j := by
  rw [backoffDelay_eq_exact h1 (by omega), backoffDelay_eq_exact (by omega) hj]
  have := pow_le_pow_right₀ (show (1:Int) ≤ 2 from by norm_num)
    (show i - 1 ≤ j - 1 from by omega)
  omega

theorem delayList_pairwise_small (i r : Nat) (h : i + r ≤ 36) :
    (delayList i r).Pairwise (· ≤ ·) := by
  have hr : ((List.range' i r).filter (fun j => decide (0 < j))).Pairwise (· < ·) := by
    refine List.Pairwise.filter _ ?_
    have := List.pairwise_lt_range' i r 1 (by omega)
    simpa using this
  unfold delayList
  rw [List.pairwise_map]
  refine hr.imp_of_mem ?_
  intro a b ha hb hab
  have ha1 : 0 < a := by simpa using (List.mem_filter.mp ha).2
  have hb1 : b < i + r := (List.mem_range'_1.mp (List.mem_filter.mp hb).1).2
  exact backoffDelay_le (by omega) (le_of_lt hab) (by omega)

theorem urlLoop_zero (responses : Nat → AttemptOutcome) (i : Nat) (le : Option UrlErr)
    (att : Nat) (ds : List Int) :
    urlLoop responses 0 i le att ds =
      ⟨match le with | some e => .failure e | none => .nilNil, att, ds⟩ := rfl

theorem urlLoop_step_transport (responses : Nat → AttemptOutcome) (r i : Nat)
    (le : Option UrlErr) (att : Nat) (ds : List Int)
    (hresp : responses i = .transportErr) :
    urlLoop responses (r + 1) i le att ds =
      urlLoop responses r (i + 1) (some .transport) (att + 1) (ds ++ dStep i) := by
  simp only [urlLoop, hresp]
  by_cases h : 0 < i <;> simp [h, dStep]

theorem urlLoop_step_read (responses : Nat → AttemptOutcome) (r i : Nat)
    (le : Option UrlErr) (att : Nat) (ds : List Int)
    (hresp : responses i = .readErr) :
    urlLoop responses (r + 1) i le att ds =
      urlLoop responses r (i + 1) (some .readFail) (att + 1) (ds ++ dStep i) := by
  simp only [urlLoop, hresp]
  by_cases h : 0 < i <;> simp [h, dStep]

theorem urlLoop_step_resp (responses : Nat → AttemptOutcome) (r i : Nat)
    (le : Option UrlErr) (att : Nat) (ds : List Int) (s : Nat) (b : String) (v : Bool)
    (hresp : responses i = .resp s b v) :
    urlLoop responses (r + 1) i le att ds =
      if 500 ≤ s then
        urlLoop responses r (i + 1) (some (.server s)) (att + 1) (ds ++ dStep i)
      else if s ≠ 200 then ⟨.failure (.badStatus s), att + 1, ds ++ dStep i⟩
      else if v = false then ⟨.failure .invalidJSON, att + 1, ds ++ dStep i⟩
      else ⟨.success b, att + 1, ds ++ dStep i⟩ := by
  simp only [urlLoop, hresp]
  by_cases h : 0 < i <;> by_cases h5 : 500 ≤ s <;>
    by_cases h200 : s = 200 <;> by_cases hv : v = false <;>
      simp [h, h5, h200, hv, dStep]

theorem urlLoop_attempts_base (responses : Nat → AttemptOutcome) :
    ∀ (r i : Nat) (le : Option UrlErr) (att : Nat) (ds : List Int),
      att ≤ (urlLoop responses r i le att ds).attempts := by
  intro r
  induction r with
  | zero => intro i le att ds; simp [urlLoop_zero]
  | succ r ih =>
      intro i le att ds
      cases hresp : responses i with
      | transportErr =>
          rw [urlLoop_step_transport responses r i le att ds hresp]
          exact le_trans (by omega) (ih _ _ _ _)
      | readErr =>
          rw [urlLoop_step_read responses r i le att ds hresp]
          exact le_trans (by omega) (ih _ _ _ _)
      | resp s b v =>
          rw [urlLoop_step_resp responses r i le att ds s b v hresp]
          by_cases h5 : 500 ≤ s
          · simp only [if_pos h5]
            exact le_trans (by omega) (ih _ _ _ _)
          · by_cases h200 : s ≠ 200
            · simp [if_neg h5, if_pos h200]
            · by_cases hv : v = false <;> simp [if_neg h5, if_neg h200, hv]

theorem urlLoop_attempts_ge (responses : Nat → AttemptOutcome)
    (r i : Nat) (le : Option UrlErr) (att : Nat) (ds : List Int) (hr : 1 ≤ r) :
    att + 1 ≤ (urlLoop responses r i le att ds).attempts := by
  obtain ⟨r', rfl⟩ : ∃ r', r = r' + 1 := ⟨r - 1, by omega⟩
  cases hresp : responses i with
  | transportErr =>
      rw [urlLoop_step_transport responses r' i le att ds hresp]
      exact urlLoop_attempts_base responses r' _ _ _ _
  | readErr =>
      rw [urlLoop_step_read responses r' i le att ds hresp]
      exact urlLoop_attempts_base responses r' _ _ _ _
  | resp s b v =>
      rw [urlLoop_step_resp responses r' i le att ds s b v hresp]
      by_cases h5 : 500 ≤ s
      · simp only [if_pos h5]
        exact urlLoop_attempts_base responses r' _ _ _ _
      · by_cases h200 : s ≠ 200
        · simp [if_neg h5, if_pos h200]
        · by_cases hv : v = false <;> simp [if_neg h5, if_neg h200, hv]

/-- A run over nothing but 5xx responses exhausts its budget: the result is
the server error of the last attempt, with one attempt per budget unit and
the full back-off delay schedule. -/
theorem urlLoop_all5xx (responses : Nat → AttemptOutcome) :
    ∀ (r i : Nat) (le : Option UrlErr) (att : Nat) (ds : List Int),
      1 ≤ r →
      (∀ j, j < r → ∃ s b v, 500 ≤ s ∧ responses (i + j) = .resp s b v) →
      ∃ s, 500 ≤ s ∧
        urlLoop responses r i le att ds =
          ⟨.failure (.server s), att + r, ds ++ delayList i r⟩ := by
  intro r
  induction r with
  | zero => omega
  | succ r ih =>
      intro i le att ds _ hall
      obtain ⟨s, b, v, hs, hresp⟩ := hall 0 (by omega)
      simp only [Nat.add_zero] at hresp
      rw [urlLoop_step_resp responses r i le att ds s b v hresp, if_pos hs]
      cases r with
      | zero =>
          refine ⟨s, hs, ?_⟩
          rw [urlLoop_zero]
          simp [delayList_succ, delayList_zero]
      | succ r' =>
          have step : ∀ j, j < r' + 1 → ∃ s b v, 500 ≤ s ∧ responses (i + 1 + j) = .resp s b v := by
            intro j hj
            have := hall (j + 1) (by omega)
            simpa [Nat.add_assoc, Nat.add_comm 1 j] using this
          obtain ⟨s', hs', heq⟩ :=
            ih (i + 1) (some (.server s)) (att + 1) (ds ++ dStep i) (by omega) step
          refine ⟨s', hs', ?_⟩
          rw [heq]
          congr 1
          · omega
          · simp [delayList_succ]

/-- A run whose first k responses are 5xx and whose attempt k is a valid
200 succeeds on attempt k + 1 whenever the budget allows it. -/
theorem urlLoop_success (responses : Nat → AttemptOutcome) (body : String) :
    ∀ (k r i : Nat) (le : Option UrlErr) (att : Nat) (ds : List Int),
      k + 1 ≤ r →
      (∀ j, j < k → ∃ s b v, 500 ≤ s ∧ responses (i + j) = .resp s b v) →
      responses (i + k) = .resp 200 body true →
      urlLoop responses r i le att ds =
        ⟨.success body, att + (k + 1), ds ++ delayList i (k + 1)⟩ := by
  intro k
  induction k with
  | zero =>
      intro r i le att ds hr _ h200
      obtain ⟨r', rfl⟩ : ∃ r', r = r' + 1 := ⟨r - 1, by omega⟩
      simp only [Nat.add_zero] at h200
      rw [urlLoop_step_resp responses r' i le att ds 200 body true h200]
      simp [delayList_succ, delayList_zero]
  | succ k ih =>
      intro r i le att ds hr hall h200
      obtain ⟨r', rfl⟩ : ∃ r', r = r' + 1 := ⟨r - 1, by omega⟩
      obtain ⟨s, b, v, hs, hresp⟩ := hall 0 (by omega)
      simp only [Nat.add_zero] at hresp
      have step : ∀ j, j < k → ∃ s b v, 500 ≤ s ∧ responses (i + 1 + j) = .resp s b v := by
        intro j hj
        have := hall (j + 1) (by omega)
        simpa [Nat.add_assoc, Nat.add_comm 1 j] using this
      have h200' : responses (i + 1 + k) = .resp 200 body true := by
        have he : i + 1 + k = i + (k + 1) := by omega
        rw [he]; exact h200
      rw [urlLoop_step_resp responses r' i le att ds s b v hresp, if_pos hs,
        ih r' (i + 1) (some (.server s)) (att + 1) (ds ++ dStep i) (by omega) step h200']
      congr 1
      · omega
      · rw [delayList_succ (i := i) (r := k + 1)]
        simp

/-- A non-200 status below 500 on the first attempt ends the run at once,
for every budget. -/
theorem urlLoop_terminal_first (responses : Nat → AttemptOutcome)
    (r : Nat) (le : Option UrlErr) (s : Nat) (b : String) (v : Bool)
    (hr : 1 ≤ r) (hresp : responses 0 = .resp s b v) (h5 : s < 500) (h200 : s ≠ 200) :
    urlLoop responses r 0 le 0 [] = ⟨.failure (.badStatus s), 1, []⟩ := by
  obtain ⟨r', rfl⟩ : ∃ r', r = r' + 1 := ⟨r - 1, by omega⟩
  rw [urlLoop_step_resp responses r' 0 le 0 [] s b v hresp]
  simp [show ¬ 500 ≤ s from by omega, h200, dStep]

/-- The delays of any run form an initial segment of the back-off
schedule. -/
theorem urlLoop_delays (responses : Nat → AttemptOutcome) :
    ∀ (r i : Nat) (le : Option UrlErr) (att : Nat) (ds : List Int),
      ∃ m, m ≤ r ∧ (urlLoop responses r i le att ds).delays = ds ++ delayList i m := by
  intro r
  induction r with
  | zero =>
      intro i le att ds
      exact ⟨0, by omega, by simp [urlLoop_zero, delayList_zero]⟩
  | succ r ih =>
      intro i le att ds
      have hone : ∀ m, (ds ++ dStep i) ++ delayList (i + 1) m = ds ++ delayList i (m + 1) := by
        intro m
        rw [delayList_succ]
        simp
      cases hresp : responses i with
      | transportErr =>
          rw [urlLoop_step_transport responses r i le att ds hresp]
          obtain ⟨m, hm, he⟩ := ih (i + 1) (some .transport) (att + 1) (ds ++ dStep i)
          exact ⟨m + 1, by omega, by rw [he, hone m]⟩
      | readErr =>
          rw [urlLoop_step_read responses r i le att ds hresp]
          obtain ⟨m, hm, he⟩ := ih (i + 1) (some .readFail) (att + 1) (ds ++ dStep i)
          exact ⟨m + 1, by omega, by rw [he, hone m]⟩
      | resp s b v =>
          rw [urlLoop_step_resp responses r i le att ds s b v hresp]
          by_cases h5 : 500 ≤ s
          · simp only [if_pos h5]
            obtain ⟨m, hm, he⟩ := ih (i + 1) (some (.server s)) (att + 1) (ds ++ dStep i)
            exact ⟨m + 1, by omega, by rw [he, hone m]⟩
          · by_cases h200 : s ≠ 200
            · exact ⟨1, by omega, by simp [if_neg h5, if_pos h200, delayList_one]⟩
            · by_cases hv : v = false
              · exact ⟨1, by omega, by simp [if_neg h5, if_neg h200, hv, delayList_one]⟩
              · exact ⟨1, by omega, by simp [if_neg h5, if_neg h200, hv, delayList_one]⟩

/-- One-iteration budgets make exactly one attempt, whatever happens. -/
theorem urlLoop_one_attempts (responses : Nat → AttemptOutcome)
    (i : Nat) (le : Option UrlErr) (att : Nat) (ds : List Int) :
    (urlLoop responses 1 i le att ds).attempts = att + 1 := by
  cases hresp : responses i with
  | transportErr => rw [urlLoop_step_transport responses 0 i le att ds hresp, urlLoop_zero]
  | readErr => rw [urlLoop_step_read responses 0 i le att ds hresp, urlLoop_zero]
  | resp s b v =>
      rw [urlLoop_step_resp responses 0 i le att ds s b v hresp]
      by_cases h5 : 500 ≤ s
      · simp [if_pos h5, urlLoop_zero]
      · by_cases h200 : s ≠ 200
        · simp [if_neg h5, if_pos h200]
        · by_cases hv : v = false <;> simp [if_neg h5, if_neg h200, hv]

/-- The loop never falls through with a nil error and a nil body: every
continue path records an error first. -/
theorem urlLoop_no_nilNil (responses : Nat → AttemptOutcome) :
    ∀ (r i : Nat) (le : Option UrlErr) (att : Nat) (ds : List Int),
      1 ≤ r ∨ le.isSome →
      (urlLoop responses r i le att ds).outcome ≠ .nilNil := by
  intro r
  induction r with
  | zero =>
      intro i le att ds h
      match le, h with
      | some e, _ => simp [urlLoop_zero]
      | none, h => simp at h
  | succ r ih =>
      intro i le att ds _
      cases hresp : responses i with
      | transportErr =>
          rw [urlLoop_step_transport responses r i le att ds hresp]
          exact ih _ _ _ _ (Or.inr rfl)
      | readErr =>
          rw [urlLoop_step_read responses r i le att ds hresp]
          exact ih _ _ _ _ (Or.inr rfl)
      | resp s b v =>
          rw [urlLoop_step_resp responses r i le att ds s b v hresp]
          by_cases h5 : 500 ≤ s
          · simp only [if_pos h5]
            exact ih _ _ _ _ (Or.inr rfl)
          · by_cases h200 : s ≠ 200
            · simp [if_neg h5, if_pos h200]
            · by_cases hv : v = false <;> simp [if_neg h5, if_neg h200, hv]

/-! ## Claims about the retriever retry policy (C3, C7, C10) and the
generator protocol (C6, C9) -/

theorem maxAttempts_of_pos (R : Int) (h : 1 ≤ R) : maxAttempts R = R.toNat := by
  unfold maxAttempts
  split <;> omega

theorem maxAttempts_one_of_nonpos (R : Int) (h : R ≤ 0) : maxAttempts R = 1 := by
  unfold maxAttempts
  split
  · rfl
  · omega

/-- C3 (amended): against a server that answers 500 on its first K requests
and then a valid 200, retrieveFromURL with Retries = K + 1 succeeds with
the 200 body after K + 1 attempts; with 1 <= Retries <= K it fails with the
server error after exactly Retries attempts (a non-positive Retries is
clamped to a single attempt, so the exactly-Retries count holds only from
1); and the delays slept between consecutive attempts are monotonically
non-decreasing as long as the attempt budget stays within 36, the delay of
each attempt being retryBaseDelay * 2^(attempt-1) computed in int64, which
wraps negative at attempt 36 (see the counterexample). -/
theorem retrieveFromURL_retry_policy (responses : Nat → AttemptOutcome) (K : Nat)
    (body : String)
    (h5 : ∀ j, j < K → ∃ s b v, 500 ≤ s ∧ responses j = .resp s b v)
    (h200 : responses K = .resp 200 body true) :
    retrieveFromURL responses ((K : Int) + 1) = ⟨.success body, K + 1, delayList 0 (K + 1)⟩
      ∧ (∀ R : Int, 1 ≤ R → R ≤ (K : Int) → ∃ s, 500 ≤ s ∧
          retrieveFromURL responses R = ⟨.failure (.server s), R.toNat, delayList 0 R.toNat⟩)
      ∧ (∀ R : Int, R ≤ 36 → (retrieveFromURL responses R).delays.Pairwise (· ≤ ·)) := by
  refine ⟨?_, ?_, ?_⟩
  · rw [retrieveFromURL, maxAttempts_of_pos _ (by omega)]
    have hm : ((K : Int) + 1).toNat = K + 1 := by omega
    rw [hm, urlLoop_success responses body K (K + 1) 0 none 0 [] (by omega)
      (by intro j hj; simpa using h5 j hj) (by simpa using h200)]
    simp
  · intro R h1 hK
    rw [retrieveFromURL, maxAttempts_of_pos _ h1]
    obtain ⟨s, hs, he⟩ := urlLoop_all5xx responses R.toNat 0 none 0 [] (by omega)
      (by intro j hj; exact (by simpa using h5 j (by omega)))
    exact ⟨s, hs, by rw [he]; simp⟩
  · intro R hR
    obtain ⟨m, hm, he⟩ := urlLoop_delays responses (maxAttempts R) 0 none 0 []
    rw [retrieveFromURL, he]
    have hb : maxAttempts R ≤ 36 := by
      unfold maxAttempts
      split <;> omega
    simpa using delayList_pairwise_small 0 m (by omega)

def c3responses : Nat → AttemptOutcome :=
  fun i => if i < 2 then .resp 500 "" true else .resp 200 "body" true

theorem retrieveFromURL_retry_policy_witness :
    retrieveFromURL c3responses ((2 : Nat) + (1 : Int)) =
      ⟨.success "body", 2 + 1, delayList 0 (2 + 1)⟩ :=
  (retrieveFromURL_retry_policy c3responses 2 "body"
    (fun j hj => ⟨500, "", true, by omega, by simp [c3responses, hj]⟩)
    (by decide)).1

def c3server : Nat → AttemptOutcome := fun _ => .resp 500 "" true

/-- C3 (counterexample to the claim as stated): with Retries = 0 and a
server that always answers 500 (so K = 1 is an admissible count of leading
500s and Retries <= K holds), the code still makes one attempt, not
exactly Retries = 0 attempts.  Moreover the back-off delays are not
monotone in every run: the delay before attempt 35 is the exact
8589934592000000000 ns, but at attempt 36 the int64 product
retryBaseDelay * (1 << 35) wraps to the negative -1266874889709551616, so
against an all-500 server with Retries = 37 the slept delays strictly
decrease at the last step. -/
theorem retrieveFromURL_retry_policy_counterexample :
    ((retrieveFromURL c3server 0).attempts = 1 ∧
      (retrieveFromURL c3server 0).attempts ≠ 0 ∧
      (retrieveFromURL c3server 0).outcome = .failure (.server 500)) ∧
    (backoffDelay 35 = 8589934592000000000 ∧
      backoffDelay 36 = -1266874889709551616 ∧
      (retrieveFromURL c3server 37).delays.getD 34 0 = 8589934592000000000 ∧
      (retrieveFromURL c3server 37).delays.getD 35 0 = -1266874889709551616 ∧
      ¬ (retrieveFromURL c3server 37).delays.Pairwise (· ≤ ·)) := by
  decide

/-- C7 (amended): retrieveFromURL retries (up to the attempt budget) on
HTTP status 500 and above and on transport or body-read errors, but every
other non-200 status - including 429 - ends the run immediately with a
terminal failure after the attempt that observed it. -/
theorem retrieveFromURL_terminal_statuses (responses : Nat → AttemptOutcome) (R : Int) :
    (∀ s b v, responses 0 = .resp s b v → s < 500 → s ≠ 200 →
        retrieveFromURL responses R = ⟨.failure (.badStatus s), 1, []⟩)
      ∧ ((responses 0 = .transportErr ∨ responses 0 = .readErr ∨
            (∃ s b v, 500 ≤ s ∧ responses 0 = .resp s b v)) →
          2 ≤ maxAttempts R → 2 ≤ (retrieveFromURL responses R).attempts) := by
  constructor
  · intro s b v hresp h5 h200
    rw [retrieveFromURL]
    have hpos : 1 ≤ maxAttempts R := by
      unfold maxAttempts
      split <;> omega
    exact urlLoop_terminal_first responses (maxAttempts R) none s b v hpos hresp h5 h200
  · intro hfirst h2
    obtain ⟨m, hm⟩ : ∃ m, maxAttempts R = m + 2 := ⟨maxAttempts R - 2, by omega⟩
    rw [retrieveFromURL, hm]
    rcases hfirst with h | h | ⟨s, b, v, hs, h⟩
    · rw [show m + 2 = (m + 1) + 1 from rfl, urlLoop_step_transport responses (m + 1) 0 none 0 [] h]
      exact urlLoop_attempts_ge responses (m + 1) 1 _ 1 _ (by omega)
    · rw [show m + 2 = (m + 1) + 1 from rfl, urlLoop_step_read responses (m + 1) 0 none 0 [] h]
      exact urlLoop_attempts_ge responses (m + 1) 1 _ 1 _ (by omega)
    · rw [show m + 2 = (m + 1) + 1 from rfl,
        urlLoop_step_resp responses (m + 1) 0 none 0 [] s b v h, if_pos hs]
      exact urlLoop_attempts_ge responses (m + 1) 1 _ 1 _ (by omega)

theorem retrieveFromURL_terminal_statuses_witness :
    retrieveFromURL (fun _ => .resp 404 "" true) 3 = ⟨.failure (.badStatus 404), 1, []⟩ :=
  (retrieveFromURL_terminal_statuses (fun _ => .resp 404 "" true) 3).1 404 "" true rfl
    (by omega) (by omega)

def c7responses : Nat → AttemptOutcome :=
  fun i => if i = 0 then .resp 429 "" true else .resp 200 "ok" true

/-- C7 (counterexample to the claim as stated): a 429 response is terminal
in the code: with Retries = 3 and a server answering 429 then 200, the run
stops after one attempt with the status failure and never reaches the
200. -/
theorem retrieveFromURL_terminal_statuses_counterexample :
    retrieveFromURL c7responses 3 = ⟨.failure (.badStatus 429), 1, []⟩ ∧
      (retrieveFromURL c7responses 3).outcome ≠ .success "ok" := by
  decide

/-- C10: a non-positive Retries option is clamped to a budget of one: the
run makes exactly one HTTP attempt, and the loop cannot return the Go
(nil, nil) pair of no error and no result. -/
theorem retrieveFromURL_clamps_budget (responses : Nat → AttemptOutcome) (R : Int)
    (h : R ≤ 0) :
    (retrieveFromURL responses R).attempts = 1 ∧
      (retrieveFromURL responses R).outcome ≠ .nilNil := by
  rw [retrieveFromURL, maxAttempts_one_of_nonpos R h]
  exact ⟨urlLoop_one_attempts responses 0 none 0 [],
    urlLoop_no_nilNil responses 1 0 none 0 [] (Or.inl (by omega))⟩

theorem retrieveFromURL_clamps_budget_witness :
    (retrieveFromURL (fun _ => .resp 500 "x" true) (-2)).attempts = 1 ∧
      (retrieveFromURL (fun _ => .resp 500 "x" true) (-2)).outcome ≠ .nilNil :=
  retrieveFromURL_clamps_budget (fun _ => .resp 500 "x" true) (-2) (by omega)

/-- C9: Retrieve on an empty declaration list returns a nil result and no
error, with zero underlying fetches under every schedule (and, in the
code, no cache construction or worker dispatch, which the early return
precedes). -/
theorem Retrieve_empty (env : RetrieveEnv) (noCache : Bool) (sched : Nat → Bool) :
    Retrieve env noCache sched [] = (.ok [], 0) := rfl

/-- C6 (amended): Generate succeeds exactly when the runner resolves, the
adapter exits 0 and its stdout unmarshals as a list of GenerateOutput; the
decoded list is returned verbatim, with no count check against the input
batch and no per-field validation, so no round-trip correspondence between
input and output keys is enforced. -/
theorem Generate_no_protocol_validation (inputs : List GenerateInput)
    (runnerFound : Bool) (exitCode : Nat) (stderr : String)
    (decoded : Option (List GenerateOutput)) :
    ∀ outs, Generate inputs runnerFound exitCode stderr decoded = .ok outs ↔
      (runnerFound = true ∧ exitCode = 0 ∧ decoded = some outs) := by
  intro outs
  cases runnerFound <;> by_cases he : exitCode = 0 <;> cases decoded <;>
    simp [Generate, he]

theorem Generate_no_protocol_validation_witness :
    Generate [] true 0 "" (some []) = .ok [] :=
  ((Generate_no_protocol_validation [] true 0 "" (some [])) []).mpr ⟨rfl, rfl, rfl⟩

/-- C6 (counterexample to the claim as stated): an adapter whose stdout
decodes to an empty array while the batch has one input item is accepted
by Generate, although the claim requires a mismatched count to fail. -/
theorem Generate_count_mismatch_counterexample :
    Generate [⟨"users", "User", "\x7b\x7d"⟩] true 0 "" (some []) = .ok [] ∧
      ([] : List GenerateOutput).length ≠
        [(⟨"users", "User", "\x7b\x7d"⟩ : GenerateInput)].length := by
  decide

/-! ## Claim C2: cache correctness of Retrieve -/

theorem runFetch_eq_of_cacheKey (env : RetrieveEnv) (d1 d2 : Declaration)
    (h1 : d1.source.isRemote = true) (h2 : d2.source.isRemote = true)
    (hk : cacheKey env d1 = cacheKey env d2) : runFetch env d1 = runFetch env d2 := by
  have hd := congrArg String.data hk
  cases hs1 : d1.source with
  | inline j => rw [hs1] at h1; simp [Source.isRemote] at h1
  | url u =>
      cases hs2 : d2.source with
      | inline j => rw [hs2] at h2; simp [Source.isRemote] at h2
      | url u' =>
          simp only [cacheKey, hs1, hs2, String.data_append,
            show ("url:" : String).data = ['u', 'r', 'l', ':'] from rfl] at hd
          simp only [List.cons_append, List.nil_append, List.cons.injEq, true_and] at hd
          have : u = u' := String.ext hd
          simp [runFetch, hs1, hs2, this]
      | file p =>
          simp only [cacheKey, hs1, hs2, String.data_append,
            show ("url:" : String).data = ['u', 'r', 'l', ':'] from rfl,
            show ("file:" : String).data = ['f', 'i', 'l', 'e', ':'] from rfl] at hd
          simp at hd
  | file p =>
      cases hs2 : d2.source with
      | inline j => rw [hs2] at h2; simp [Source.isRemote] at h2
      | url u' =>
          simp only [cacheKey, hs1, hs2, String.data_append,
            show ("url:" : String).data = ['u', 'r', 'l', ':'] from rfl,
            show ("file:" : String).data = ['f', 'i', 'l', 'e', ':'] from rfl] at hd
          simp at hd
      | file p' =>
          simp only [cacheKey, hs1, hs2, String.data_append,
            show ("file:" : String).data = ['f', 'i', 'l', 'e', ':'] from rfl] at hd
          simp only [List.cons_append, List.nil_append, List.cons.injEq, true_and] at hd
          have : env.joinRel d1.configPath p = env.joinRel d2.configPath p' := String.ext hd
          simp [runFetch, hs1, hs2, this]

theorem viewCache_of_true (sched : Nat → Bool) (i : Nat) (cache : List (String × String))
    (p : Option (String × String)) (h : sched i = true) :
    viewCache sched i cache p = landPending cache p := by
  cases p with
  | none => rfl
  | some kv => simp [viewCache, landPending, h]

theorem viewPending_of_true (sched : Nat → Bool) (i : Nat)
    (p : Option (String × String)) (h : sched i = true) :
    viewPending sched i p = none := by
  cases p with
  | none => rfl
  | some kv => simp [viewPending, h]

theorem mem_viewCache {sched : Nat → Bool} {i : Nat} {cache : List (String × String)}
    {p : Option (String × String)} {kv : String × String} :
    kv ∈ viewCache sched i cache p → kv ∈ landPending cache p := by
  cases p with
  | none => exact id
  | some x =>
      simp only [viewCache, landPending]
      by_cases h : sched i = true
      · rw [if_pos h]
        exact id
      · rw [if_neg h]
        exact List.mem_cons_of_mem x

theorem mem_viewPending {sched : Nat → Bool} {i : Nat}
    {p : Option (String × String)} {kv : String × String} :
    kv ∈ viewPending sched i p → kv ∈ p := by
  cases p with
  | none => exact id
  | some x =>
      simp only [viewPending]
      by_cases h : sched i = true
      · rw [if_pos h]
        intro hk
        exact absurd hk (by simp)
      · rw [if_neg h]
        exact id

theorem mem_landPending {cache : List (String × String)}
    {p : Option (String × String)} {kv : String × String} :
    kv ∈ landPending cache p → kv ∈ cache ∨ kv ∈ p := by
  cases p with
  | none => exact Or.inl
  | some x =>
      intro h
      rcases List.mem_cons.mp h with rfl | h2
      · exact Or.inr (by simp)
      · exact Or.inl h2

theorem lookupCache_mem : ∀ (c : List (String × String)) (q v : String),
    lookupCache c q = some v → (q, v) ∈ c := by
  intro c
  induction c with
  | nil => intro q v h; exact Option.noConfusion h
  | cons kv rest ih =>
      intro q v h
      obtain ⟨k0, v0⟩ := kv
      simp only [lookupCache] at h
      by_cases he : k0 = q
      · rw [if_pos he] at h
        cases h
        cases he
        exact List.mem_cons_self _ _
      · rw [if_neg he] at h
        exact List.mem_cons_of_mem _ (ih q v h)

/-- Under a fully serialised schedule (every in-flight task lands before
the next lookup), a batch keyed to a cached entry is served entirely from
the cache. -/
theorem retrieveLoop_all_hit (env : RetrieveEnv) (key b : String) (sched : Nat → Bool)
    (hs : ∀ j, sched j = true) :
    ∀ (ds : List Declaration) (i : Nat) (cache : List (String × String))
      (pending : Option (String × String)) (n : Nat),
      lookupCache (landPending cache pending) key = some b →
      (∀ d ∈ ds, cacheKey env d = key) →
      retrieveLoop env false sched ds i cache pending n =
        (.ok (ds.map fun d => ⟨d.namespace_, d.id, b, d.adapter⟩), n) := by
  intro ds
  induction ds with
  | nil => intro i cache pending n _ _; rfl
  | cons d rest ih =>
      intro i cache pending n hcache hall
      have hk : cacheKey env d = key := hall d (by simp)
      simp only [retrieveLoop, hk, Bool.false_eq_true, if_false,
        viewCache_of_true sched i cache pending (hs i),
        viewPending_of_true sched i pending (hs i), hcache]
      rw [ih (i + 1) (landPending cache pending) none n (by simpa [landPending] using hcache)
        (fun d' hd' => hall d' (by simp [hd']))]
      simp

theorem retrieveLoop_nocache (env : RetrieveEnv) (b : String) (sched : Nat → Bool) :
    ∀ (ds : List Declaration) (i : Nat) (cache : List (String × String))
      (pending : Option (String × String)) (n : Nat),
      (∀ d ∈ ds, runFetch env d = (.ok b, 1)) →
      retrieveLoop env true sched ds i cache pending n =
        (.ok (ds.map fun d => ⟨d.namespace_, d.id, b, d.adapter⟩), n + ds.length) := by
  intro ds
  induction ds with
  | nil => intro i cache pending n _; rfl
  | cons d rest ih =>
      intro i cache pending n hall
      have hf : runFetch env d = (.ok b, 1) := hall d (by simp)
      simp only [retrieveLoop, if_true, hf]
      rw [ih (i + 1) (landPending cache pending) none (n + 1)
        (fun d' hd' => hall d' (by simp [hd']))]
      simp only [List.map_cons, List.length_cons]
      rw [show n + 1 + rest.length = n + (rest.length + 1) from by omega]

/-- On a same-key batch with the cache enabled, every schedule yields the
same positional results, and the fetch count cannot exceed the batch
size: each declaration triggers at most one fetch. -/
theorem retrieveLoop_samekey_bounds (env : RetrieveEnv) (key b : String) (sched : Nat → Bool) :
    ∀ (ds : List Declaration) (i : Nat) (cache : List (String × String))
      (pending : Option (String × String)) (n : Nat),
      (∀ d ∈ ds, cacheKey env d = key ∧ runFetch env d = (.ok b, 1)) →
      (∀ kv ∈ cache, kv = (key, b)) →
      (∀ kv ∈ pending, kv = (key, b)) →
      ∃ f, f ≤ ds.length ∧
        retrieveLoop env false sched ds i cache pending n =
          (.ok (ds.map fun d => ⟨d.namespace_, d.id, b, d.adapter⟩), n + f) := by
  intro ds
  induction ds with
  | nil =>
      intro i cache pending n _ _ _
      exact ⟨0, by simp, rfl⟩
  | cons d rest ih =>
      intro i cache pending n hall hc hp
      obtain ⟨hk, hf⟩ := hall d (by simp)
      have hcland : ∀ kv ∈ landPending cache pending, kv = (key, b) := by
        intro kv hkv
        rcases mem_landPending hkv with h | h
        · exact hc kv h
        · exact hp kv h
      have hcv : ∀ kv ∈ viewCache sched i cache pending, kv = (key, b) :=
        fun kv hkv => hcland kv (mem_viewCache hkv)
      have hpv : ∀ kv ∈ viewPending sched i pending, kv = (key, b) :=
        fun kv hkv => hp kv (mem_viewPending hkv)
      cases hl : lookupCache (viewCache sched i cache pending) (cacheKey env d) with
      | some v =>
          have hv : v = b := by
            have h2 := hcv _ (lookupCache_mem _ _ _ hl)
            have := congrArg Prod.snd h2
            simpa using this
          obtain ⟨f, hfle, he⟩ := ih (i + 1) (viewCache sched i cache pending)
            (viewPending sched i pending) n (fun d' hd' => hall d' (by simp [hd'])) hcv hpv
          refine ⟨f, by simp only [List.length_cons]; omega, ?_⟩
          simp only [retrieveLoop, Bool.false_eq_true, if_false, hl, he, hv, List.map_cons]
      | none =>
          obtain ⟨f, hfle, he⟩ := ih (i + 1) (landPending cache pending)
            (some (cacheKey env d, b)) (n + 1) (fun d' hd' => hall d' (by simp [hd'])) hcland
            (by intro kv hkv; simp only [Option.mem_def, Option.some.injEq] at hkv
                rw [← hkv, hk])
          refine ⟨f + 1, by simp only [List.length_cons]; omega, ?_⟩
          simp only [retrieveLoop, Bool.false_eq_true, if_false, hl, hf, he, List.map_cons]
          rw [show n + 1 + f = n + (f + 1) from by omega]

/-- C2 (amended): at Concurrency = 1, a nonempty batch of URL or file
declarations that share one cache key issues one fetch per declaration
when the cache is disabled; with the cache enabled it issues exactly one
fetch under a fully serialised schedule (every in-flight task completing
before the next lookup), and under an arbitrary schedule - g.Go returns
as soon as the worker starts, so the next cache.get races the in-flight
write - between one and one-per-declaration fetches, with every result
slot carrying the same bytes in all cases. -/
theorem Retrieve_cache_correctness (env : RetrieveEnv) (key b : String)
    (sched : Nat → Bool) (d0 : Declaration) (ds : List Declaration)
    (hall : ∀ d ∈ (d0 :: ds), cacheKey env d = key ∧ d.source.isRemote = true)
    (hfetch : runFetch env d0 = (.ok b, 1)) :
    Retrieve env true sched (d0 :: ds) =
        (.ok ((d0 :: ds).map fun d => ⟨d.namespace_, d.id, b, d.adapter⟩), (d0 :: ds).length)
      ∧ ((∀ j, sched j = true) →
          Retrieve env false sched (d0 :: ds) =
            (.ok ((d0 :: ds).map fun d => ⟨d.namespace_, d.id, b, d.adapter⟩), 1))
      ∧ (∃ f, 1 ≤ f ∧ f ≤ (d0 :: ds).length ∧
          Retrieve env false sched (d0 :: ds) =
            (.ok ((d0 :: ds).map fun d => ⟨d.namespace_, d.id, b, d.adapter⟩), f)) := by
  have hf : ∀ d ∈ (d0 :: ds), runFetch env d = (.ok b, 1) := by
    intro d hd
    rw [runFetch_eq_of_cacheKey env d d0 (hall d hd).2 (hall d0 (by simp)).2
      (((hall d hd).1).trans ((hall d0 (by simp)).1).symm)]
    exact hfetch
  have hk0 : cacheKey env d0 = key := (hall d0 (by simp)).1
  refine ⟨?_, ?_, ?_⟩
  · show retrieveLoop env true sched (d0 :: ds) 0 [] none 0 = _
    rw [retrieveLoop_nocache env b sched (d0 :: ds) 0 [] none 0 hf]
    simp
  · intro hs
    show retrieveLoop env false sched (d0 :: ds) 0 [] none 0 = _
    simp only [retrieveLoop, Bool.false_eq_true, if_false, viewCache, lookupCache,
      hfetch, hk0]
    rw [retrieveLoop_all_hit env key b sched hs ds (0 + 1) (landPending [] none)
      (some (key, b)) (0 + 1) (by simp [landPending, lookupCache])
      (fun d hd => (hall d (by simp [hd])).1)]
    simp
  · obtain ⟨f, hfle, he⟩ := retrieveLoop_samekey_bounds env key b sched ds (0 + 1)
      (landPending [] none) (some (key, b)) (0 + 1)
      (fun d hd => ⟨(hall d (by simp [hd])).1, hf d (by simp [hd])⟩)
      (by intro kv hkv; exact absurd hkv (by simp [landPending]))
      (by intro kv hkv
          simp only [Option.mem_def, Option.some.injEq] at hkv
          exact hkv.symm)
    refine ⟨f + 1, by omega, by simp only [List.length_cons]; omega, ?_⟩
    show retrieveLoop env false sched (d0 :: ds) 0 [] none 0 = _
    simp only [retrieveLoop, Bool.false_eq_true, if_false, viewCache, lookupCache,
      hfetch, hk0, he, List.map_cons]
    rw [show 0 + 1 + f = f + 1 from by omega]

theorem Retrieve_cache_correctness_witness :
    Retrieve ⟨fun _ => .ok "B", fun _ => .error "no", fun _ p => p⟩ false (fun _ => true)
        [⟨"n", "a", .url "http://s/x.json", "ad", "/c.jsonc"⟩,
         ⟨"n", "b", .url "http://s/x.json", "ad", "/c.jsonc"⟩] =
      (.ok [⟨"n", "a", "B", "ad"⟩, ⟨"n", "b", "B", "ad"⟩], 1) :=
  ((Retrieve_cache_correctness ⟨fun _ => .ok "B", fun _ => .error "no", fun _ p => p⟩
    ("url:" ++ "http://s/x.json") "B" (fun _ => true)
    ⟨"n", "a", .url "http://s/x.json", "ad", "/c.jsonc"⟩
    [⟨"n", "b", .url "http://s/x.json", "ad", "/c.jsonc"⟩]
    (by decide) (by decide)).2.1 (fun _ => rfl))

def c2env : RetrieveEnv := ⟨fun _ => .error "no", fun _ => .error "no", fun _ p => p⟩

def c2inlineA : Declaration := ⟨"n", "i", .inline "\x7b\x7d", "a", "/cfg.jsonc"⟩

def c2inlineB : Declaration := ⟨"n", "i", .inline "\x7b\x7d", "b", "/cfg2.jsonc"⟩

def c2envB : RetrieveEnv := ⟨fun _ => .ok "B", fun _ => .error "no", fun _ p => p⟩

def c2urlA : Declaration := ⟨"n", "a", .url "http://s/x.json", "ad", "/c.jsonc"⟩

def c2urlB : Declaration := ⟨"n", "b", .url "http://s/x.json", "ad", "/c.jsonc"⟩

/-- C2 (counterexample to the claim as stated): two inline-JSON
declarations share the cache key json:n:i, yet Retrieve issues zero
underlying fetches with the cache enabled (the claim requires exactly
one) and zero with it disabled (the claim requires N = 2): inline
payloads are embedded and never fetched.  And even for two URL
declarations sharing a key with the cache enabled, the exactly-one count
holds only schedule-dependently at Concurrency = 1: under the schedule in
which the second declaration's cache.get runs before the in-flight
fetch's cache.set lands, the key is fetched twice. -/
theorem Retrieve_cache_counterexample :
    (cacheKey c2env c2inlineA = cacheKey c2env c2inlineB ∧
      (Retrieve c2env false (fun _ => true) [c2inlineA, c2inlineB]).2 = 0 ∧ (0 : Nat) ≠ 1 ∧
      (Retrieve c2env true (fun _ => true) [c2inlineA, c2inlineB]).2 = 0 ∧ (0 : Nat) ≠ 2) ∧
    (cacheKey c2envB c2urlA = cacheKey c2envB c2urlB ∧
      (Retrieve c2envB false (fun _ => false) [c2urlA, c2urlB]).2 = 2 ∧
      (Retrieve c2envB false (fun _ => true) [c2urlA, c2urlB]).2 = 1 ∧ (2 : Nat) ≠ 1) := by
  decide

/-! ## Claim C1: uniqueness of merged declarations -/

/-- The (namespace, id) keys contributed by one config file. -/
def entryKeys (ns : String) (entries : List SchemaEntryRaw) : List (String × String) :=
  entries.map (fun e => (ns, e.id))

theorem flatKeys_cons (c : ConfigFile) (rest : List ConfigFile) :
    flatKeys (c :: rest) = entryKeys c.namespace_ c.schemas ++ flatKeys rest := by
  simp [flatKeys, entryKeys]

theorem mergeEntries_ok_spec (ns p : String) :
    ∀ (entries : List SchemaEntryRaw) (seen seenF : List ((String × String) × String))
      (ds : List Declaration),
      mergeEntries ns p entries seen = .ok (seenF, ds) →
      ds.map declKey = entryKeys ns entries ∧
        (entryKeys ns entries).Nodup ∧
        (∀ k ∈ entryKeys ns entries, lookupSeen seen k = none) ∧
        (∀ k, lookupSeen seenF k =
          if k ∈ entryKeys ns entries then some p else lookupSeen seen k) := by
  intro entries
  induction entries with
  | nil =>
      intro seen seenF ds h
      simp only [mergeEntries, Except.ok.injEq, Prod.mk.injEq] at h
      obtain ⟨hseen, hds⟩ := h
      subst hseen hds
      simp [entryKeys]
  | cons en rest ih =>
      intro seen seenF ds h
      simp only [mergeEntries] at h
      cases hl : lookupSeen seen (ns, en.id) with
      | some v => rw [hl] at h; exact absurd h (by simp)
      | none =>
          rw [hl] at h
          cases hrec : mergeEntries ns p rest (((ns, en.id), p) :: seen) with
          | error er => rw [hrec] at h; exact absurd h (by simp)
          | ok pr =>
              obtain ⟨seenR, dsR⟩ := pr
              rw [hrec] at h
              simp only [Except.ok.injEq, Prod.mk.injEq] at h
              obtain ⟨h1, h2⟩ := h
              subst h1 h2
              obtain ⟨ihmap, ihnodup, ihfresh, ihchar⟩ := ih _ _ _ hrec
              have hnotin : (ns, en.id) ∉ entryKeys ns rest := by
                intro hin
                have := ihfresh (ns, en.id) hin
                simp [lookupSeen] at this
              refine ⟨?_, ?_, ?_, ?_⟩
              · simp [entryKeys, declKey, ihmap]
              · simp only [entryKeys, List.map_cons, List.nodup_cons]
                exact ⟨hnotin, ihnodup⟩
              · intro k hk
                simp only [entryKeys, List.map_cons, List.mem_cons] at hk
                rcases hk with hk | hk
                · subst hk; exact hl
                · have := ihfresh k hk
                  simp only [lookupSeen] at this
                  by_cases he : ((ns, en.id) : String × String) = k
                  · rw [if_pos he] at this; exact absurd this (by simp)
                  · rw [if_neg he] at this; exact this
              · intro k
                rw [ihchar k]
                simp only [entryKeys, List.map_cons, List.mem_cons, lookupSeen]
                by_cases hk : k ∈ List.map (fun e => (ns, e.id)) rest
                · simp [hk]
                · by_cases he : k = ((ns, en.id) : String × String)
                  · simp [hk, he]
                  · have he2 : ¬ ((ns, en.id) : String × String) = k := fun hh => he hh.symm
                    simp [hk, he, he2]

theorem mergeConfigs_ok_spec :
    ∀ (configs : List ConfigFile) (seen : List ((String × String) × String))
      (ds : List Declaration),
      mergeConfigs configs seen = .ok ds →
      ds.map declKey = flatKeys configs ∧ (flatKeys configs).Nodup ∧
        (∀ k ∈ flatKeys configs, lookupSeen seen k = none) := by
  intro configs
  induction configs with
  | nil =>
      intro seen ds h
      simp only [mergeConfigs, Except.ok.injEq] at h
      subst h
      simp [flatKeys]
  | cons c rest ih =>
      intro seen ds h
      simp only [mergeConfigs] at h
      cases hme : mergeEntries c.namespace_ c.path c.schemas seen with
      | error er => simp only [hme] at h; exact absurd h (by simp)
      | ok pr =>
          obtain ⟨seen', ds1⟩ := pr
          simp only [hme] at h
          cases hmc : mergeConfigs rest seen' with
          | error er => simp only [hmc] at h; exact absurd h (by simp)
          | ok ds2 =>
              simp only [hmc, Except.ok.injEq] at h
              subst h
              obtain ⟨h1map, h1nodup, h1fresh, h1char⟩ := mergeEntries_ok_spec _ _ _ _ _ _ hme
              obtain ⟨ihmap, ihnodup, ihfresh⟩ := ih _ _ hmc
              have hdisj : ∀ k ∈ entryKeys c.namespace_ c.schemas, k ∉ flatKeys rest := by
                intro k hk hk2
                have hn := ihfresh k hk2
                rw [h1char k, if_pos hk] at hn
                exact absurd hn (by simp)
              refine ⟨?_, ?_, ?_⟩
              · rw [flatKeys_cons, List.map_append, h1map, ihmap]
              · rw [flatKeys_cons, List.nodup_append]
                exact ⟨h1nodup, ihnodup, fun k hk => hdisj k hk⟩
              · intro k hk
                rw [flatKeys_cons, List.mem_append] at hk
                rcases hk with hk | hk
                · exact h1fresh k hk
                · have hn := ihfresh k hk
                  rw [h1char k] at hn
                  by_cases hke : k ∈ entryKeys c.namespace_ c.schemas
                  · rw [if_pos hke] at hn; exact absurd hn (by simp)
                  · rw [if_neg hke] at hn; exact hn

/-- k is declared (as namespace plus schema id) by a config of paths with
path v. -/
def declaredAt (configs : List ConfigFile) (k : String × String) (v : String) : Prop :=
  ∃ c ∈ configs, c.path = v ∧ c.namespace_ = k.1 ∧ ∃ en ∈ c.schemas, en.id = k.2

theorem mergeEntries_err_P (P : String × String → String → Prop) (ns p : String) :
    ∀ (entries : List SchemaEntryRaw) (seen : List ((String × String) × String))
      (e : DupErr),
      (∀ k v, lookupSeen seen k = some v → P k v) →
      (∀ en ∈ entries, P (ns, en.id) p) →
      mergeEntries ns p entries seen = .error e →
      P (e.namespace_, e.id) e.firstPath ∧ e.secondPath = p ∧ e.namespace_ = ns ∧
        ∃ en ∈ entries, en.id = e.id := by
  intro entries
  induction entries with
  | nil =>
      intro seen e _ _ h
      exact absurd h (by simp [mergeEntries])
  | cons en rest ih =>
      intro seen e hseen hself h
      simp only [mergeEntries] at h
      cases hl : lookupSeen seen (ns, en.id) with
      | some v =>
          rw [hl] at h
          simp only [Except.error.injEq] at h
          subst h
          exact ⟨hseen _ _ hl, rfl, rfl, en, by simp, rfl⟩
      | none =>
          rw [hl] at h
          cases hrec : mergeEntries ns p rest (((ns, en.id), p) :: seen) with
          | ok pr => rw [hrec] at h; exact absurd h (by simp)
          | error er =>
              rw [hrec] at h
              simp only [Except.error.injEq] at h
              subst h
              have hseen' : ∀ k v, lookupSeen (((ns, en.id), p) :: seen) k = some v → P k v := by
                intro k v hk
                simp only [lookupSeen] at hk
                by_cases he : ((ns, en.id) : String × String) = k
                · rw [if_pos he] at hk
                  simp only [Option.some.injEq] at hk
                  subst hk
                  rw [← he]
                  exact hself en (by simp)
                · rw [if_neg he] at hk
                  exact hseen k v hk
              obtain ⟨hp, hsp, hns, en', hen', hid⟩ :=
                ih _ _ hseen' (fun x hx => hself x (by simp [hx])) hrec
              exact ⟨hp, hsp, hns, en', by simp [hen'], hid⟩

theorem mergeConfigs_err_P (configs₀ : List ConfigFile) :
    ∀ (configs : List ConfigFile) (seen : List ((String × String) × String)) (e : DupErr),
      (∀ c ∈ configs, c ∈ configs₀) →
      (∀ k v, lookupSeen seen k = some v → declaredAt configs₀ k v) →
      mergeConfigs configs seen = .error e →
      declaredAt configs₀ (e.namespace_, e.id) e.firstPath ∧
        declaredAt configs₀ (e.namespace_, e.id) e.secondPath := by
  intro configs
  induction configs with
  | nil =>
      intro seen e _ _ h
      exact absurd h (by simp [mergeConfigs])
  | cons c rest ih =>
      intro seen e hsub hseen h
      simp only [mergeConfigs] at h
      have hc0 : c ∈ configs₀ := hsub c (by simp)
      cases hme : mergeEntries c.namespace_ c.path c.schemas seen with
      | error er =>
          simp only [hme, Except.error.injEq] at h
          have hself : ∀ en ∈ c.schemas, declaredAt configs₀ (c.namespace_, en.id) c.path :=
            fun en hen => ⟨c, hc0, rfl, rfl, en, hen, rfl⟩
          obtain ⟨hp, hsp, hns, en, hen, hid⟩ :=
            mergeEntries_err_P (declaredAt configs₀) c.namespace_ c.path c.schemas seen er
              hseen hself hme
          rw [← h]
          exact ⟨hp, ⟨c, hc0, hsp.symm, hns.symm, en, hen, hid⟩⟩
      | ok pr =>
          obtain ⟨seen', ds1⟩ := pr
          simp only [hme] at h
          cases hmc : mergeConfigs rest seen' with
          | ok ds2 => simp only [hmc] at h; exact absurd h (by simp)
          | error er =>
              simp only [hmc, Except.error.injEq] at h
              obtain ⟨_, _, _, h1char⟩ := mergeEntries_ok_spec _ _ _ _ _ _ hme
              have hseen' : ∀ k v, lookupSeen seen' k = some v → declaredAt configs₀ k v := by
                intro k v hk
                rw [h1char k] at hk
                by_cases hke : k ∈ entryKeys c.namespace_ c.schemas
                · rw [if_pos hke] at hk
                  simp only [Option.some.injEq] at hk
                  subst hk
                  simp only [entryKeys, List.mem_map] at hke
                  obtain ⟨en, hen, hkeq⟩ := hke
                  exact ⟨c, hc0, rfl, by rw [← hkeq], en, hen, by rw [← hkeq]⟩
                · rw [if_neg hke] at hk
                  exact hseen k v hk
              rw [← h]
              exact ih seen' er (fun x hx => hsub x (by simp [hx])) hseen' hmc

/-- The fmt.Errorf message of the duplicate error contains both origin
paths as substrings. -/
theorem DupErr.message_names_paths (e : DupErr) :
    (∃ a b, e.message = a ++ e.firstPath ++ b) ∧
      (∃ a b, e.message = a ++ e.secondPath ++ b) := by
  constructor
  · exact ⟨"duplicate schema ID \"" ++ e.id ++ "\" in namespace \"" ++ e.namespace_ ++
      "\": defined in both ", " and " ++ e.secondPath,
      by simp [DupErr.message, String.append_assoc]⟩
  · exact ⟨"duplicate schema ID \"" ++ e.id ++ "\" in namespace \"" ++ e.namespace_ ++
      "\": defined in both " ++ e.firstPath ++ " and ", "",
      by simp [DupErr.message, String.append_assoc]⟩

/-- C1: the declaration list produced by a successful mergeDeclarations
(and hence by Parse) carries pairwise distinct (namespace, id) keys - it
is exactly the flattened key list of the configs; and whenever two schema
entries across the input configs share a (namespace, id), mergeDeclarations
returns a duplicate-ID error and no declaration list, and the error message
names the paths of two configs declaring that key. -/
theorem mergeDeclarations_unique (configs : List ConfigFile) :
    (∀ ds, mergeDeclarations configs = .ok ds →
        (ds.map declKey).Nodup ∧ ds.map declKey = flatKeys configs)
      ∧ (¬ (flatKeys configs).Nodup →
          ∃ e, mergeDeclarations configs = .error e ∧
            (∃ a b, e.message = a ++ e.firstPath ++ b) ∧
            (∃ a b, e.message = a ++ e.secondPath ++ b) ∧
            declaredAt configs (e.namespace_, e.id) e.firstPath ∧
            declaredAt configs (e.namespace_, e.id) e.secondPath) := by
  constructor
  · intro ds h
    obtain ⟨hmap, hnodup, _⟩ := mergeConfigs_ok_spec configs [] ds h
    exact ⟨by rw [hmap]; exact hnodup, hmap⟩
  · intro hdup
    cases h : mergeConfigs configs [] with
    | ok ds =>
        obtain ⟨_, hnodup, _⟩ := mergeConfigs_ok_spec configs [] ds h
        exact absurd hnodup hdup
    | error e =>
        obtain ⟨h1, h2⟩ := mergeConfigs_err_P configs configs [] e (fun c hc => hc)
          (fun k v hk => absurd hk (by simp [lookupSeen])) h
        exact ⟨e, h, (DupErr.message_names_paths e).1, (DupErr.message_names_paths e).2, h1, h2⟩

theorem mergeDeclarations_unique_witness :
    ∃ e, mergeDeclarations
        [⟨"/a/shared.jsonc", "shared", tsReg, [⟨"User", .inline "\x7b\x7d", "z"⟩]⟩,
         ⟨"/b/other.jsonc", "shared", tsReg, [⟨"User", .inline "\x7b\x7d", "z"⟩]⟩] = .error e ∧
      (∃ a b, e.message = a ++ e.firstPath ++ b) ∧
      (∃ a b, e.message = a ++ e.secondPath ++ b) ∧
      declaredAt
        [⟨"/a/shared.jsonc", "shared", tsReg, [⟨"User", .inline "\x7b\x7d", "z"⟩]⟩,
         ⟨"/b/other.jsonc", "shared", tsReg, [⟨"User", .inline "\x7b\x7d", "z"⟩]⟩]
        (e.namespace_, e.id) e.firstPath ∧
      declaredAt
        [⟨"/a/shared.jsonc", "shared", tsReg, [⟨"User", .inline "\x7b\x7d", "z"⟩]⟩,
         ⟨"/b/other.jsonc", "shared", tsReg, [⟨"User", .inline "\x7b\x7d", "z"⟩]⟩]
        (e.namespace_, e.id) e.secondPath :=
  (mergeDeclarations_unique
    [⟨"/a/shared.jsonc", "shared", tsReg, [⟨"User", .inline "\x7b\x7d", "z"⟩]⟩,
     ⟨"/b/other.jsonc", "shared", tsReg, [⟨"User", .inline "\x7b\x7d", "z"⟩]⟩]).2
    (by decide)

/-! ## Claim C8: disposition of non-xschema and unknown-xschema documents -/

def c8goodFile : RawFile :=
  ⟨"/p/users.jsonc", some ⟨"https://xschema.dev/schemas/ts.jsonc", "",
    [⟨"User", .inline "\x7b\x7d", "@xschema/zod"⟩]⟩⟩

def c8badFile : RawFile :=
  ⟨"/p/bad.jsonc", some ⟨"https://xschema.dev/schemas/go.jsonc", "", []⟩⟩

def c8foreignFile : RawFile :=
  ⟨"/p/tsconfig.json", some ⟨"https://json.schemastore.org/tsconfig", "", []⟩⟩

/-- C8: parseConfigFile does return a hard error naming the offending URL
for a document whose $schema is in the xschema namespace with an unknown
extension - but Parse swallows every per-file error with a verbose log and
continues, so the run behaves as if the document were silently skipped,
exactly like a document whose $schema is foreign (which parseConfigFile
maps to ok none).  Evaluated at the failing input of two config files, one
valid TypeScript one and one with the unknown go.jsonc extension. -/
theorem Parse_swallows_unknown_xschema :
    parseConfigFile c8badFile =
        .error "unknown xschema language in $schema: https://xschema.dev/schemas/go.jsonc"
      ∧ parseConfigFile c8foreignFile = .ok none
      ∧ Parse "/p" [c8goodFile, c8badFile, c8foreignFile] "" = Parse "/p" [c8goodFile] ""
      ∧ (Parse "/p" [c8goodFile, c8badFile, c8foreignFile] "").isOk = true := by
  refine ⟨by decide, by decide, by decide, by decide⟩

/-! ## Claim C4: idempotence of the client-file injection -/

theorem containsSub_iff (hay nd : List Char) :
    containsSub hay nd = true ↔ ∃ pre suf, hay = pre ++ nd ++ suf := by
  induction hay with
  | nil =>
      simp only [containsSub, List.isEmpty_iff]
      constructor
      · intro h
        exact ⟨[], [], by simp [h]⟩
      · rintro ⟨pre, suf, h⟩
        rcases pre with _ | ⟨p, ps⟩
        · rcases nd with _ | ⟨n, ns⟩
          · rfl
          · simp at h
        · simp at h
  | cons c rest ih =>
      simp only [containsSub, Bool.or_eq_true, ih, List.isPrefixOf_iff_prefix]
      constructor
      · rintro (⟨t, ht⟩ | ⟨pre, suf, h⟩)
        · exact ⟨[], t, by simp [← ht]⟩
        · exact ⟨c :: pre, suf, by simp [h]⟩
      · rintro ⟨pre, suf, h⟩
        rcases pre with _ | ⟨p, ps⟩
        · exact Or.inl ⟨suf, by simpa using h.symm⟩
        · simp only [List.cons_append, List.cons.injEq] at h
          exact Or.inr ⟨ps, suf, h.2⟩

theorem trimRightL_append (xs ys : List Char) :
    trimRightL (xs ++ ys) =
      if trimRightL ys = [] then trimRightL xs else xs ++ trimRightL ys := by
  by_cases h : trimRightL ys = []
  · rw [if_pos h]
    unfold trimRightL at h ⊢
    have hh : (List.dropWhile isGoSpace ys.reverse).isEmpty = true := by
      rw [List.isEmpty_iff]
      simpa using h
    rw [List.reverse_append, List.dropWhile_append, if_pos hh]
  · rw [if_neg h]
    unfold trimRightL at h ⊢
    have hh : ¬ (List.dropWhile isGoSpace ys.reverse).isEmpty = true := by
      rw [List.isEmpty_iff]
      simpa using h
    rw [List.reverse_append, List.dropWhile_append, if_neg hh, List.reverse_append,
      List.reverse_reverse]

theorem trimRightL_schemas (v : List Char) :
    trimRightL ("schemas,".toList ++ v) = "schemas,".toList ++ trimRightL v := by
  rw [trimRightL_append]
  by_cases h : trimRightL v = []
  · rw [if_pos h, h, List.append_nil]
    decide
  · rw [if_neg h]

theorem trimLeftL_cons_space (l : List Char) : trimLeftL (' ' :: l) = trimLeftL l := by
  simp [trimLeftL, List.dropWhile_cons, isGoSpace]

theorem trimLeftL_schemas (v : List Char) :
    trimLeftL ("schemas,".toList ++ v) = "schemas,".toList ++ v := by
  rw [show ("schemas,".toList ++ v) = 's' :: ("chemas,".toList ++ v) from rfl]
  rw [trimLeftL, List.dropWhile_cons]
  simp [show isGoSpace 's' = false from rfl]

theorem kb_braceSchemas :
    injectSchemasKeyBrace ("\x7b schemas \x7d".toList) = "\x7b schemas \x7d".toList := by
  decide

theorem kb_insert_fixed (inner : List Char) :
    injectSchemasKeyBrace ("\x7b schemas, ".toList ++ inner ++ " \x7d".toList) =
      "\x7b schemas, ".toList ++ inner ++ " \x7d".toList := by
  have hcons : ("\x7b schemas, ".toList ++ inner ++ " \x7d".toList) =
      '{' :: (" schemas, ".toList ++ inner ++ " \x7d".toList) := rfl
  have hidx : (("\x7b schemas, ".toList ++ inner ++ " \x7d".toList)).findIdx?
      (fun c => c = '{') = some 0 := by
    rw [hcons]
    simp [List.findIdx?]
  have hlen : ("\x7b schemas, ".toList ++ inner ++ " \x7d".toList).length =
      inner.length + 13 := by
    simp
    try omega
  have hinner : kbInner ("\x7b schemas, ".toList ++ inner ++ " \x7d".toList) 0 =
      " schemas, ".toList ++ inner ++ [' '] := by
    unfold kbInner
    rw [hlen, show inner.length + 13 - 1 - (0 + 1) = inner.length + 11 from by omega]
    rw [hcons]
    simp only [List.drop_succ_cons, List.drop_zero]
    rw [show (" schemas, ".toList ++ inner ++ " \x7d".toList) =
      (" schemas, ".toList ++ inner ++ [' ']) ++ ['}'] from by simp]
    rw [show inner.length + 11 = (" schemas, ".toList ++ inner ++ [' ']).length from by
      simp
      try omega]
    exact List.take_left _ _
  have htrim : trimSpaceL (" schemas, ".toList ++ inner ++ [' ']) =
      "schemas,".toList ++ trimRightL ([' '] ++ inner ++ [' ']) := by
    rw [show (" schemas, ".toList ++ inner ++ [' ']) =
      ' ' :: ("schemas,".toList ++ ([' '] ++ inner ++ [' '])) from by simp]
    rw [trimSpaceL, trimLeftL_cons_space, trimLeftL_schemas, trimRightL_schemas]
  have hpre : "schemas".toList.isPrefixOf
      ("schemas,".toList ++ trimRightL ([' '] ++ inner ++ [' '])) = true := by
    rw [List.isPrefixOf_iff_prefix,
      show ("schemas,".toList ++ trimRightL ([' '] ++ inner ++ [' '])) =
        "schemas".toList ++ (',' :: trimRightL ([' '] ++ inner ++ [' '])) from by simp]
    exact List.prefix_append _ _
  have hdrop7 : ("schemas,".toList ++ trimRightL ([' '] ++ inner ++ [' '])).drop 7 =
      ',' :: trimRightL ([' '] ++ inner ++ [' ']) := by
    rw [show ("schemas,".toList ++ trimRightL ([' '] ++ inner ++ [' '])) =
      "schemas".toList ++ (',' :: trimRightL ([' '] ++ inner ++ [' '])) from by simp,
      List.drop_append_eq_append_drop]
    simp
  have hcomma : ",".toList.isPrefixOf
      ((("schemas,".toList ++ trimRightL ([' '] ++ inner ++ [' ']))).drop 7) = true := by
    rw [hdrop7, List.isPrefixOf_iff_prefix]
    exact ⟨trimRightL ([' '] ++ inner ++ [' ']), rfl⟩
  simp only [injectSchemasKeyBrace, hidx]
  rw [if_neg (by rw [hlen]; omega)]
  rw [hinner, htrim]
  unfold kbBranch
  rw [if_pos (by rw [hpre, hcomma]; simp)]

theorem kbBranch_cases (s inner t : List Char) :
    kbBranch s inner t = s ∨ kbBranch s inner t = "\x7b schemas \x7d".toList ∨
      kbBranch s inner t = "\x7b schemas, ".toList ++ inner ++ " \x7d".toList := by
  unfold kbBranch
  split_ifs with h1 h2 h3 h4
  · exact Or.inl rfl
  · exact Or.inl rfl
  · exact Or.inl rfl
  · exact Or.inr (Or.inl rfl)
  · exact Or.inr (Or.inr rfl)

theorem kb_cases (s : List Char) :
    injectSchemasKeyBrace s = s ∨ injectSchemasKeyBrace s = "\x7b schemas \x7d".toList ∨
      ∃ inner, injectSchemasKeyBrace s = "\x7b schemas, ".toList ++ inner ++ " \x7d".toList := by
  cases hf : s.findIdx? (fun c => c = '{') with
  | none =>
      left
      simp [injectSchemasKeyBrace, hf]
  | some i =>
      simp only [injectSchemasKeyBrace, hf]
      by_cases h1 : s.length < i + 2
      · rw [if_pos h1]
        exact Or.inr (Or.inl rfl)
      · rw [if_neg h1]
        rcases kbBranch_cases s (kbInner s i) (trimSpaceL (kbInner s i)) with h | h | h
        · exact Or.inl h
        · exact Or.inr (Or.inl h)
        · exact Or.inr (Or.inr ⟨kbInner s i, h⟩)

theorem injectSchemasKeyBrace_idem (s : List Char) :
    injectSchemasKeyBrace (injectSchemasKeyBrace s) = injectSchemasKeyBrace s := by
  rcases kb_cases s with h | h | ⟨inner, h⟩
  · rw [h]
    exact h
  · rw [h]
    exact kb_braceSchemas
  · rw [h]
    exact kb_insert_fixed inner

theorem buildTS_contains (p : List Char) :
    containsSub (buildTSSchemasImport p) p = true :=
  (containsSub_iff _ _).mpr ⟨"import \x7b schemas \x7d from \"".toList, "\";".toList, rfl⟩

theorem injectSchemasImport_stable (lang : LangInj) (content importPath : List Char)
    (hbuild : ∀ build, lang.buildSchemasImport = some build →
      containsSub (build importPath) importPath = true) :
    injectSchemasImport lang (injectSchemasImport lang content importPath) importPath =
      injectSchemasImport lang content importPath := by
  cases hb : lang.buildSchemasImport with
  | none => simp [injectSchemasImport, hb]
  | some build =>
      have hstable : ∀ c1, containsSub c1 importPath = true →
          injectSchemasImport lang c1 importPath = c1 := by
        intro c1 hc1
        have hcond : (containsSub c1 importPath ||
            containsSub c1 (trimPreL "./".toList importPath)) = true := by
          rw [hc1]
          simp
        simp only [injectSchemasImport, hb]
        rw [if_pos hcond]
      by_cases hc : (containsSub content importPath ||
          containsSub content (trimPreL "./".toList importPath)) = true
      · have h1 : injectSchemasImport lang content importPath = content := by
          simp only [injectSchemasImport, hb]
          rw [if_pos hc]
        rw [h1]
        exact h1
      · by_cases hl : build importPath = []
        · have h1 : injectSchemasImport lang content importPath = content := by
            simp only [injectSchemasImport, hb]
            rw [if_neg hc, if_pos hl]
          rw [h1]
          exact h1
        · have hinf := hbuild build hb
          obtain ⟨p1, p2, hdecomp⟩ := (containsSub_iff _ _).mp hinf
          have hcont : ∀ X Y : List Char,
              containsSub (X ++ (build importPath ++ Y)) importPath = true := by
            intro X Y
            refine (containsSub_iff _ _).mpr ⟨X ++ p1, p2 ++ Y, ?_⟩
            rw [hdecomp]
            simp
          cases hk : lang.importKeywords with
          | none =>
              have h1 : injectSchemasImport lang content importPath =
                  build importPath ++ '\n' :: content := by
                simp only [injectSchemasImport, hb]
                rw [if_neg hc, if_neg hl]
                simp only [hk]
              rw [h1]
              refine hstable _ ?_
              have := hcont [] ('\n' :: content)
              simpa using this
          | some kws =>
              cases hs : findImportSpans kws content with
              | nil =>
                  have h1 : injectSchemasImport lang content importPath =
                      build importPath ++ '\n' :: content := by
                    simp only [injectSchemasImport, hb]
                    rw [if_neg hc, if_neg hl]
                    simp only [hk, hs]
                  rw [h1]
                  refine hstable _ ?_
                  have := hcont [] ('\n' :: content)
                  simpa using this
              | cons m ms =>
                  have h1 : injectSchemasImport lang content importPath =
                      content.take ((m :: ms).getLastD (0, 0)).2 ++
                        '\n' :: (build importPath ++
                          content.drop ((m :: ms).getLastD (0, 0)).2) := by
                    simp only [injectSchemasImport, hb]
                    rw [if_neg hc, if_neg hl]
                    simp only [hk, hs]
                  rw [h1]
                  refine hstable _ ?_
                  have := hcont (content.take ((m :: ms).getLastD (0, 0)).2 ++ ['\n'])
                    (content.drop ((m :: ms).getLastD (0, 0)).2)
                  simpa using this

/-- C4 (amended): injectSchemasKeyBrace is idempotent, and an existing
schemas key is recognised - hence not duplicated - only when it is the
first key of the captured object literal; the import-injection step never
inserts its line twice provided the built import line contains the checked
path, which holds for the TypeScript line builder (but not for the
Python one, whose module-form line never matches the path-form check); and
InjectClient writes the file back exactly when the content changed. -/
theorem InjectClient_injection_facts :
    (∀ s, injectSchemasKeyBrace (injectSchemasKeyBrace s) = injectSchemasKeyBrace s)
      ∧ (∀ (lang : LangInj) (content importPath : List Char),
          (∀ build, lang.buildSchemasImport = some build →
            containsSub (build importPath) importPath = true) →
          injectSchemasImport lang (injectSchemasImport lang content importPath) importPath =
            injectSchemasImport lang content importPath)
      ∧ (∀ p, containsSub (buildTSSchemasImport p) p = true)
      ∧ (∀ (lang : LangInj) (outDir content : List Char),
          injectClientWrites lang outDir content = true ↔
            injectClientContent lang outDir content ≠ content) :=
  ⟨injectSchemasKeyBrace_idem, injectSchemasImport_stable, buildTS_contains,
    fun lang outDir content => by simp [injectClientWrites]⟩

theorem InjectClient_injection_facts_witness :
    injectSchemasImport tsInj
        (injectSchemasImport tsInj "const c = 1;\n".toList "./.xschema/xschema.gen".toList)
        "./.xschema/xschema.gen".toList =
      injectSchemasImport tsInj "const c = 1;\n".toList "./.xschema/xschema.gen".toList :=
  InjectClient_injection_facts.2.1 tsInj "const c = 1;\n".toList
    "./.xschema/xschema.gen".toList
    (fun build hb => by
      have hb2 : some buildTSSchemasImport = some build := hb
      injection hb2 with h
      rw [← h]
      exact buildTS_contains _)

def c4pyClient : List Char := "from x import y\ncreate_xschema_client(\x7b\x7d)".toList

/-- C4 (counterexample to the claim as stated): a schemas key that is not
the first key of the object literal is not recognised, so a second one is
inserted; and for the Python language InjectClient applied twice is not
byte-identical to applying it once - the second run appends a duplicate
line, because the inserted module-form line does not contain the
path-form string that the presence check looks for. -/
theorem InjectClient_counterexample :
    injectSchemasKeyBrace "\x7b output: 1, schemas \x7d".toList =
        "\x7b schemas,  output: 1, schemas  \x7d".toList
      ∧ injectClientContent pyInj ".xschema".toList
          (injectClientContent pyInj ".xschema".toList c4pyClient) ≠
        injectClientContent pyInj ".xschema".toList c4pyClient := by
  exact ⟨by decide, by decide⟩

/-! ## Claim C5: structure of the merged import output -/

/-- The ordering proposition of leStr. -/
abbrev leS (a b : List Char) : Prop := leStr a b = true

theorem char_toNat_inj {a b : Char} (h : a.toNat = b.toNat) : a = b :=
  Char.ext (UInt32.ext h)

theorem leStr_total (a : List Char) : ∀ b, leStr a b = true ∨ leStr b a = true := by
  induction a with
  | nil => intro b; exact Or.inl rfl
  | cons x xs ih =>
      intro b
      cases b with
      | nil => exact Or.inr rfl
      | cons y ys =>
          simp only [leStr]
          by_cases h1 : x.toNat < y.toNat
          · exact Or.inl (by rw [if_pos h1])
          · by_cases h2 : y.toNat < x.toNat
            · exact Or.inr (by rw [if_pos h2])
            · rcases ih ys with h | h
              · exact Or.inl (by rw [if_neg h1, if_neg h2]; exact h)
              · exact Or.inr (by rw [if_neg h2, if_neg h1]; exact h)

theorem leStr_trans (a : List Char) :
    ∀ b c, leStr a b = true → leStr b c = true → leStr a c = true := by
  induction a with
  | nil => intro b c _ _; rfl
  | cons x xs ih =>
      intro b c h1 h2
      cases b with
      | nil => simp [leStr] at h1
      | cons y ys =>
          cases c with
          | nil => simp [leStr] at h2
          | cons z zs =>
              simp only [leStr] at h1 h2 ⊢
              by_cases hxy : x.toNat < y.toNat
              · by_cases hyz : y.toNat < z.toNat
                · rw [if_pos (show x.toNat < z.toNat from by omega)]
                · by_cases hzy : z.toNat < y.toNat
                  · rw [if_neg hyz, if_pos hzy] at h2
                    exact absurd h2 (by simp)
                  · rw [if_pos (show x.toNat < z.toNat from by omega)]
              · by_cases hyx : y.toNat < x.toNat
                · rw [if_neg hxy, if_pos hyx] at h1
                  exact absurd h1 (by simp)
                · by_cases hyz : y.toNat < z.toNat
                  · rw [if_pos (show x.toNat < z.toNat from by omega)]
                  · by_cases hzy : z.toNat < y.toNat
                    · rw [if_neg hyz, if_pos hzy] at h2
                      exact absurd h2 (by simp)
                    · rw [if_neg hxy, if_neg hyx] at h1
                      rw [if_neg hyz, if_neg hzy] at h2
                      rw [if_neg (show ¬ x.toNat < z.toNat from by omega),
                        if_neg (show ¬ z.toNat < x.toNat from by omega)]
                      exact ih ys zs h1 h2

theorem leStr_antisymm (a : List Char) :
    ∀ b, leStr a b = true → leStr b a = true → a = b := by
  induction a with
  | nil =>
      intro b _ h2
      cases b with
      | nil => rfl
      | cons y ys => simp [leStr] at h2
  | cons x xs ih =>
      intro b h1 h2
      cases b with
      | nil => simp [leStr] at h1
      | cons y ys =>
          simp only [leStr] at h1 h2
          by_cases hxy : x.toNat < y.toNat
          · rw [if_neg (show ¬ y.toNat < x.toNat from by omega), if_pos hxy] at h2
            exact absurd h2 (by simp)
          · by_cases hyx : y.toNat < x.toNat
            · rw [if_neg hxy, if_pos hyx] at h1
              exact absurd h1 (by simp)
            · have hx : x = y := char_toNat_inj (by omega)
              rw [if_neg hxy, if_neg hyx] at h1
              rw [if_neg hyx, if_neg hxy] at h2
              rw [hx, ih ys h1 h2]

theorem insertLe_perm (x : List Char) (l : List (List Char)) :
    (insertLe x l).Perm (x :: l) := by
  induction l with
  | nil => exact List.Perm.refl _
  | cons y ys ih =>
      simp only [insertLe]
      by_cases h : leStr x y = true
      · rw [if_pos h]
      · rw [if_neg h]
        exact (List.Perm.cons y ih).trans (List.Perm.swap x y ys)

theorem insertLe_mem {a x : List Char} {l : List (List Char)} :
    a ∈ insertLe x l ↔ a = x ∨ a ∈ l := by
  rw [(insertLe_perm x l).mem_iff]
  simp

theorem insertLe_pairwise (x : List Char) (l : List (List Char))
    (h : l.Pairwise leS) : (insertLe x l).Pairwise leS := by
  induction l with
  | nil => simp [insertLe, List.pairwise_cons]
  | cons y ys ih =>
      obtain ⟨hy, hys⟩ := List.pairwise_cons.mp h
      simp only [insertLe]
      by_cases hle : leStr x y = true
      · rw [if_pos hle]
        refine List.pairwise_cons.mpr ⟨?_, h⟩
        intro z hz
        rcases List.mem_cons.mp hz with rfl | hz2
        · exact hle
        · exact leStr_trans x y z hle (hy z hz2)
      · rw [if_neg hle]
        refine List.pairwise_cons.mpr ⟨?_, ih hys⟩
        intro z hz
        rcases insertLe_mem.mp hz with hzx | hz2
        · rcases leStr_total x y with ht | ht
          · exact absurd ht hle
          · rw [hzx]
            exact ht
        · exact hy z hz2

theorem sortStrings_pairwise (l : List (List Char)) : (sortStrings l).Pairwise leS := by
  induction l with
  | nil => simp [sortStrings]
  | cons x xs ih => exact insertLe_pairwise x _ ih

theorem sortStrings_perm (l : List (List Char)) : (sortStrings l).Perm l := by
  induction l with
  | nil => exact List.Perm.refl _
  | cons x xs ih => exact (insertLe_perm x (sortStrings xs)).trans (List.Perm.cons x ih)

theorem sortStrings_nodup (l : List (List Char)) (h : l.Nodup) :
    (sortStrings l).Nodup := ((sortStrings_perm l).nodup_iff).mpr h

theorem compactL_subset : ∀ (l : List (List Char)) (a : List Char), a ∈ compactL l → a ∈ l := by
  intro l
  induction l with
  | nil => intro a h; exact absurd h (by simp [compactL])
  | cons x rest ih =>
      intro a h
      cases rest with
      | nil => simpa [compactL] using h
      | cons y rs =>
          simp only [compactL] at h
          by_cases he : x = y
          · rw [if_pos he] at h
            exact List.mem_cons_of_mem x (ih a h)
          · rw [if_neg he] at h
            rcases List.mem_cons.mp h with rfl | h2
            · simp
            · exact List.mem_cons_of_mem x (ih a h2)

theorem compactL_sorted_nodup :
    ∀ l : List (List Char), l.Pairwise leS → (compactL l).Pairwise leS ∧ (compactL l).Nodup := by
  intro l
  induction l with
  | nil => intro _; simp [compactL]
  | cons x rest ih =>
      intro h
      obtain ⟨hx, hrest⟩ := List.pairwise_cons.mp h
      cases rest with
      | nil => simp [compactL]
      | cons y rs =>
          simp only [compactL]
          by_cases he : x = y
          · rw [if_pos he]
            exact ih hrest
          · rw [if_neg he]
            obtain ⟨ihp, ihn⟩ := ih hrest
            obtain ⟨hy, _⟩ := List.pairwise_cons.mp hrest
            constructor
            · refine List.pairwise_cons.mpr ⟨?_, ihp⟩
              intro z hz
              exact hx z (compactL_subset _ z hz)
            · refine List.nodup_cons.mpr ⟨?_, ihn⟩
              intro hmem
              rcases List.mem_cons.mp (compactL_subset _ x hmem) with hxy | hxr
              · exact he hxy
              · exact he (leStr_antisymm x y (hx y (by simp)) (hy x hxr))

theorem sortCompact_sorted_nodup (l : List (List Char)) :
    (compactL (sortStrings l)).Pairwise leS ∧ (compactL (sortStrings l)).Nodup :=
  compactL_sorted_nodup _ (sortStrings_pairwise l)

theorem lookupStr_eq_none {β : Type} :
    ∀ (m : List (List Char × β)) (k : List Char),
      lookupStr m k = none ↔ k ∉ m.map Prod.fst := by
  intro m
  induction m with
  | nil => intro k; simp [lookupStr]
  | cons kv rest ih =>
      intro k
      obtain ⟨k0, v0⟩ := kv
      simp only [lookupStr, List.map_cons, List.mem_cons]
      by_cases he : k0 = k
      · rw [if_pos he]
        constructor
        · intro h
          exact Option.noConfusion h
        · intro hn
          exact absurd (Or.inl he.symm) hn
      · simp only [if_neg he, ih k]
        constructor
        · intro hn
          rintro (h | h)
          · exact he h.symm
          · exact hn h
        · intro hn h
          exact hn (Or.inr h)

theorem upsertNames_keys (src nm : List Char) :
    ∀ m : List (List Char × List (List Char)),
      (upsertNames m src nm).map Prod.fst =
        if src ∈ m.map Prod.fst then m.map Prod.fst else m.map Prod.fst ++ [src] := by
  intro m
  induction m with
  | nil => simp [upsertNames]
  | cons kv rest ih =>
      obtain ⟨k0, v0⟩ := kv
      simp only [upsertNames]
      by_cases he : k0 = src
      · rw [if_pos he]
        simp [he]
      · rw [if_neg he]
        simp only [List.map_cons, ih, List.mem_cons]
        by_cases hin : src ∈ rest.map Prod.fst
        · rw [if_pos hin, if_pos (Or.inr hin)]
        · rw [if_neg hin, if_neg (by rintro (h | h); exact he h.symm; exact hin h)]
          simp

theorem upsertNames_keys_nodup (src nm : List Char) (m : List (List Char × List (List Char)))
    (h : (m.map Prod.fst).Nodup) : ((upsertNames m src nm).map Prod.fst).Nodup := by
  rw [upsertNames_keys]
  by_cases hin : src ∈ m.map Prod.fst
  · rw [if_pos hin]
    exact h
  · rw [if_neg hin]
    rw [List.nodup_append]
    exact ⟨h, by simp, by intro a ha hmem; simp at hmem; subst hmem; exact hin ha⟩

theorem setDefault_keys (src nm : List Char) :
    ∀ m : List (List Char × List Char),
      (setDefault m src nm).map Prod.fst =
        if src ∈ m.map Prod.fst then m.map Prod.fst else m.map Prod.fst ++ [src] := by
  intro m
  induction m with
  | nil => simp [setDefault]
  | cons kv rest ih =>
      obtain ⟨k0, v0⟩ := kv
      simp only [setDefault]
      by_cases he : k0 = src
      · rw [if_pos he]
        simp [he]
      · rw [if_neg he]
        simp only [List.map_cons, ih, List.mem_cons]
        by_cases hin : src ∈ rest.map Prod.fst
        · rw [if_pos hin, if_pos (Or.inr hin)]
        · rw [if_neg hin, if_neg (by rintro (h | h); exact he h.symm; exact hin h)]
          simp

theorem setDefault_keys_nodup (src nm : List Char) (m : List (List Char × List Char))
    (h : (m.map Prod.fst).Nodup) : ((setDefault m src nm).map Prod.fst).Nodup := by
  rw [setDefault_keys]
  by_cases hin : src ∈ m.map Prod.fst
  · rw [if_pos hin]
    exact h
  · rw [if_neg hin]
    rw [List.nodup_append]
    exact ⟨h, by simp, by intro a ha hmem; simp at hmem; subst hmem; exact hin ha⟩

theorem addNames_keys_nodup (src raw : List Char) (m : List (List Char × List (List Char)))
    (h : (m.map Prod.fst).Nodup) : ((addNames m src raw).map Prod.fst).Nodup := by
  unfold addNames
  generalize splitOnComma raw = parts
  induction parts generalizing m with
  | nil => exact h
  | cons nm rest ih =>
      simp only [List.foldl_cons]
      by_cases he : trimSpaceL nm = []
      · rw [if_pos he]
        exact ih m h
      · rw [if_neg he]
        exact ih _ (upsertNames_keys_nodup src (trimSpaceL nm) m h)

theorem tsParseLoop_keys_nodup :
    ∀ (imports : List (List Char)) (acc : TSAcc),
      (acc.sourceToNames.map Prod.fst).Nodup →
      (acc.defaultImports.map Prod.fst).Nodup →
      ((tsParseLoop imports acc).sourceToNames.map Prod.fst).Nodup ∧
        ((tsParseLoop imports acc).defaultImports.map Prod.fst).Nodup := by
  intro imports
  induction imports with
  | nil => intro acc h1 h2; exact ⟨h1, h2⟩
  | cons imp rest ih =>
      intro acc h1 h2
      simp only [tsParseLoop]
      by_cases he : trimSpaceL imp = []
      · rw [if_pos he]
        exact ih acc h1 h2
      · rw [if_neg he]
        cases hn : scanFirst tryNamedAt (trimSpaceL imp) with
        | some r =>
            obtain ⟨names, src⟩ := r
            exact ih _ (addNames_keys_nodup src names acc.sourceToNames h1) h2
        | none =>
            cases hd : scanFirst tryDefaultAt (trimSpaceL imp) with
            | some r =>
                obtain ⟨nm, src⟩ := r
                exact ih _ h1 (setDefault_keys_nodup src nm acc.defaultImports h2)
            | none =>
                cases hs : scanFirst trySideAt (trimSpaceL imp) with
                | some src => exact ih _ h1 h2
                | none => exact ih acc h1 h2

theorem pyParseLoop_keys_nodup :
    ∀ (imports : List (List Char)) (acc : PyAcc),
      (acc.fromImports.map Prod.fst).Nodup →
      ((pyParseLoop imports acc).fromImports.map Prod.fst).Nodup := by
  intro imports
  induction imports with
  | nil => intro acc h1; exact h1
  | cons imp rest ih =>
      intro acc h1
      simp only [pyParseLoop]
      by_cases he : trimSpaceL imp = []
      · rw [if_pos he]
        exact ih acc h1
      · rw [if_neg he]
        cases hf : scanFirst tryFromAt (trimSpaceL imp) with
        | some r =>
            obtain ⟨md, names⟩ := r
            exact ih _ (addNames_keys_nodup md names acc.fromImports h1)
        | none =>
            cases hi : pyImportMatch (trimSpaceL imp) with
            | some md => exact ih _ h1
            | none => exact ih acc h1

theorem dedupNames_keys (m : List (List Char × List (List Char))) :
    (dedupNames m).map Prod.fst = m.map Prod.fst := by
  simp [dedupNames]

theorem dedupNames_entries (m : List (List Char × List (List Char))) :
    ∀ kv ∈ dedupNames m, kv.2.Pairwise leS ∧ kv.2.Nodup := by
  intro kv hkv
  unfold dedupNames at hkv
  obtain ⟨kv0, _, hkv0⟩ := List.mem_map.mp hkv
  rw [← hkv0]
  exact sortCompact_sorted_nodup kv0.2

theorem tsSources_sorted_nodup (named : List (List Char × List (List Char)))
    (defaults : List (List Char × List Char))
    (h1 : (named.map Prod.fst).Nodup) (h2 : (defaults.map Prod.fst).Nodup) :
    (tsSources named defaults).Pairwise leS ∧ (tsSources named defaults).Nodup := by
  refine ⟨sortStrings_pairwise _, sortStrings_nodup _ ?_⟩
  rw [List.nodup_append]
  refine ⟨h1, List.Nodup.filter _ h2, ?_⟩
  intro s hs hmem
  have hp := List.of_mem_filter hmem
  rw [Option.isNone_iff_eq_none, lookupStr_eq_none named s] at hp
  exact hp hs

/-- C5 (amended): on any input, MergeTSImports emits the sorted,
deduplicated side-effect statements first and then one statement per
source of the named/default section in sorted source order with sorted,
deduplicated specifiers; MergePyImports likewise emits the sorted,
deduplicated plain-import statements first and then one from-statement
per module in sorted module order with sorted, deduplicated names. Both
are plain functions of the input list, hence deterministic. The original
one-statement-per-source and sorted-by-source claims fail across the two
sections (see the counterexample). -/
theorem MergeImports_sorted_dedup (tsImports pyImports : List (List Char)) :
    MergeTSImports tsImports =
      joinSep ['\n']
        (tsSideStmts (tsParseLoop tsImports ⟨[], [], []⟩).sideEffects ++
          tsMainStmts (dedupNames (tsParseLoop tsImports ⟨[], [], []⟩).sourceToNames)
            (tsParseLoop tsImports ⟨[], [], []⟩).defaultImports) ∧
    (compactL (sortStrings (tsParseLoop tsImports ⟨[], [], []⟩).sideEffects)).Pairwise leS ∧
    (compactL (sortStrings (tsParseLoop tsImports ⟨[], [], []⟩).sideEffects)).Nodup ∧
    (tsSources (dedupNames (tsParseLoop tsImports ⟨[], [], []⟩).sourceToNames)
        (tsParseLoop tsImports ⟨[], [], []⟩).defaultImports).Pairwise leS ∧
    (tsSources (dedupNames (tsParseLoop tsImports ⟨[], [], []⟩).sourceToNames)
        (tsParseLoop tsImports ⟨[], [], []⟩).defaultImports).Nodup ∧
    (∀ kv ∈ dedupNames (tsParseLoop tsImports ⟨[], [], []⟩).sourceToNames,
        kv.2.Pairwise leS ∧ kv.2.Nodup) ∧
    MergePyImports pyImports =
      joinSep ['\n']
        (pyDirectStmts (pyParseLoop pyImports ⟨[], []⟩).directImports ++
          pyFromStmts (dedupNames (pyParseLoop pyImports ⟨[], []⟩).fromImports)) ∧
    (compactL (sortStrings (pyParseLoop pyImports ⟨[], []⟩).directImports)).Pairwise leS ∧
    (compactL (sortStrings (pyParseLoop pyImports ⟨[], []⟩).directImports)).Nodup ∧
    (sortStrings ((dedupNames (pyParseLoop pyImports ⟨[], []⟩).fromImports).map
        Prod.fst)).Pairwise leS ∧
    (sortStrings ((dedupNames (pyParseLoop pyImports ⟨[], []⟩).fromImports).map
        Prod.fst)).Nodup ∧
    (∀ kv ∈ dedupNames (pyParseLoop pyImports ⟨[], []⟩).fromImports,
        kv.2.Pairwise leS ∧ kv.2.Nodup) := by
  have hts := tsParseLoop_keys_nodup tsImports ⟨[], [], []⟩ (by simp) (by simp)
  have hpy := pyParseLoop_keys_nodup pyImports ⟨[], []⟩ (by simp)
  have hsrc := tsSources_sorted_nodup
    (dedupNames (tsParseLoop tsImports ⟨[], [], []⟩).sourceToNames)
    (tsParseLoop tsImports ⟨[], [], []⟩).defaultImports
    (by rw [dedupNames_keys]; exact hts.1) hts.2
  refine ⟨?_, (sortCompact_sorted_nodup _).1, (sortCompact_sorted_nodup _).2,
    hsrc.1, hsrc.2, dedupNames_entries _, ?_, (sortCompact_sorted_nodup _).1,
    (sortCompact_sorted_nodup _).2, sortStrings_pairwise _,
    sortStrings_nodup _ (by rw [dedupNames_keys]; exact hpy), dedupNames_entries _⟩
  · by_cases h : tsImports = []
    · subst h
      rfl
    · simp only [MergeTSImports, if_neg h]
  · by_cases h : pyImports = []
    · subst h
      rfl
    · simp only [MergePyImports, if_neg h]

/-- Witness for C5 at a concrete input: the named import of b and a from
source m is recorded as the deduplicated sorted entry (m, [a, b]), whose
sortedness is an instance of the per-entry conjunct of the claim
theorem. -/
theorem MergeImports_sorted_dedup_witness :
    ("m".toList, ["a".toList, "b".toList]) ∈
        dedupNames (tsParseLoop ["import \x7b b, a \x7d from \"m\"".toList]
          ⟨[], [], []⟩).sourceToNames ∧
    (["a".toList, "b".toList] : List (List Char)).Pairwise leS := by
  refine ⟨by decide, ?_⟩
  have h := (MergeImports_sorted_dedup ["import \x7b b, a \x7d from \"m\"".toList]
    []).2.2.2.2.2.1
  exact (h ("m".toList, ["a".toList, "b".toList]) (by decide)).1

/-- C5 counterexample: a side-effect import of source a next to a
named import from the same source a yields two output statements for
one source, and a side-effect import of source b precedes the named
statement of source a, so the statement list is not sorted by source. -/
theorem MergeTSImports_counterexample :
    MergeTSImports ["import \"a\"".toList, "import \x7b x \x7d from \"a\"".toList] =
      ("import \"a\"\nimport \x7b x \x7d from \"a\"").toList ∧
    MergeTSImports ["import \"b\"".toList, "import \x7b x \x7d from \"a\"".toList] =
      ("import \"b\"\nimport \x7b x \x7d from \"a\"").toList := by
  decide

end XSchema
